import Mathlib

/-!
A shallow embedding of the RLP codec in `src/rlp/codec.py` (pyrlp).

Byte strings are modelled as `List Nat` (each element a byte value), Python
slices by `pySlice` (which, like Python, silently truncates at the end of the
buffer) and Python indexing `rlp[i]` by `List.getElem?` (where `none` models
the `IndexError` that indexing past the end raises).  The decoder's
`while` loop in `consume_payload` is rendered as fuel-indexed recursion; the
fuel is only a termination device: `consume_item` runs with fuel
`2 * rlp.length + 4`, and `consume_item_fuel_sufficient` proves that this
fuel can never be exhausted, so the `.fuel` error is unreachable and the
functions compute exactly what the Python code computes.
-/

namespace RLP

/-- Python slice `rlp[a:c]` for natural indices: the elements at positions
`a ≤ i < c` that exist.  Like Python, it silently stops at the end of the
list instead of raising. -/
def pySlice (rlp : List Nat) (a c : Nat) : List Nat :=
  (rlp.drop a).take (c - a)

/-- A byte string: every element is an actual byte value. -/
def validBytes (bs : List Nat) : Prop := ∀ b ∈ bs, b < 256

/-- Modelled from the spec: `eth_utils.int_to_big_endian` (an external helper
imported by `src/rlp/codec.py`, not part of `src/`) renders a nonnegative
integer in big-endian base 256 with no leading zero byte; the codec only
applies it to nonzero values.  The first argument of the auxiliary function
is structural fuel (`n` itself is always enough, since `n / 256 < n`). -/
def int_to_big_endian_aux : Nat → Nat → List Nat
  | 0, _ => []
  | fuel + 1, n => if n = 0 then [] else int_to_big_endian_aux fuel (n / 256) ++ [n % 256]

/-- Modelled from the spec: minimal big-endian representation, see
`int_to_big_endian_aux`. -/
def int_to_big_endian (n : Nat) : List Nat := int_to_big_endian_aux n n

/-- Modelled from the spec: `eth_utils.big_endian_to_int`, the inverse
direction, reading a byte string as a big-endian integer. -/
def big_endian_to_int (bs : List Nat) : Nat := bs.foldl (fun acc b => 256 * acc + b) 0

/-- A raw RLP tree (the argument domain of `encode_raw`): a byte-string leaf
(`Atomic`) or a nested sequence. -/
inductive Tree where
  | leaf (bs : List Nat)
  | node (children : List Tree)

/-- Errors raised on the encoding side: `valueError` is the `ValueError`
raised by `length_prefix`, `itemTooBig` the `EncodingError('Item too big to
encode')` that `encode_raw` converts it into, and `cannotEncode` the
`EncodingError('Cannot encode object of type ...')` for non-tree values. -/
inductive EncErr where
  | valueError
  | itemTooBig
  | cannotEncode
deriving DecidableEq

def LONG_LENGTH : Nat := 256 ^ 8

/-- Mirrors `length_prefix(length, offset)` in `src/rlp/codec.py`:
`ALL_BYTES[i]` is the single byte `i`. -/
def length_prefix (length offset : Nat) : Except EncErr (List Nat) :=
  if length < 56 then
    .ok [offset + length]
  else if length < LONG_LENGTH then
    let length_string := int_to_big_endian length
    .ok ([offset + 56 - 1 + length_string.length] ++ length_string)
  else
    .error .valueError

mutual
/-- Mirrors `encode_raw(item)` in `src/rlp/codec.py`; the `try/except
ValueError` around `length_prefix` becomes the mapping of its error to
`EncodingError('Item too big to encode')`. -/
def encode_raw : Tree → Except EncErr (List Nat)
  | .leaf item =>
      if item.length = 1 ∧ item.headD 0 < 128 then
        .ok item
      else
        match length_prefix item.length 128 with
        | .ok pre => .ok (pre ++ item)
        | .error _ => .error .itemTooBig
  | .node xs =>
      match encode_list xs with
      | .error e => .error e
      | .ok payload =>
        match length_prefix payload.length 192 with
        | .ok pre => .ok (pre ++ payload)
        | .error _ => .error .itemTooBig

/-- Mirrors `b''.join(encode_raw(x) for x in item)`: child errors propagate. -/
def encode_list : List Tree → Except EncErr (List Nat)
  | [] => .ok []
  | x :: xs =>
      match encode_raw x, encode_list xs with
      | .ok e, .ok rest => .ok (e ++ rest)
      | .error e, _ => .error e
      | .ok _, .error e => .error e
end

/-- The payload type tag returned by `consume_length_prefix` (`bytes` or
`list` in the Python code). -/
inductive Kind where
  | str
  | list
deriving DecidableEq

/-- Errors raised on the decoding side, one constructor per `raise` site:
`indexError` is Python's `IndexError` from indexing past the end;
`singleByteNonCanonical` is `DecodingError('Encoded as short string although
single byte was possible')`; `lengthStartsWithZero` is `DecodingError('Length
starts with zero bytes')`; `longStringForShort` / `longListForShort` are the
two `DecodingError('Long ... prefix used for short ...')` raises;
`listLengthMismatch` is `DecodingError('List length prefix announced a too
small length')`; `rlpStringTooShort` is the `DecodingError('RLP string too
short')` that `decode` converts an `IndexError` into; `superfluousBytes` is
the strict-mode `DecodingError('RLP string ends with ... superfluous
bytes')`.  `fuel` is an artifact of the fuel-indexed rendering of the
decoder's loop and is proven unreachable for the fuel `consume_item` uses. -/
inductive DecErr where
  | fuel
  | indexError
  | singleByteNonCanonical
  | lengthStartsWithZero
  | longStringForShort
  | longListForShort
  | listLengthMismatch
  | rlpStringTooShort
  | superfluousBytes
deriving DecidableEq

def SHORT_STRING : Nat := 128 + 56

/-- Mirrors `consume_length_prefix(rlp, start)` in `src/rlp/codec.py`.  The
returned tuple is `(prefix, type, length, end)` exactly as in the source.
The short-circuit `b0 - 128 == 1 and rlp[start + 1] < 128` only indexes
`rlp[start + 1]` (possibly raising `IndexError`) when `b0 - 128 == 1`. -/
def consume_length_prefix (rlp : List Nat) (start : Nat) :
    Except DecErr (List Nat × Kind × Nat × Nat) :=
  match rlp[start]? with
  | none => .error .indexError
  | some b0 =>
    if b0 < 128 then
      .ok ([], .str, 1, start)
    else if b0 < SHORT_STRING then
      if b0 - 128 = 1 then
        match rlp[start + 1]? with
        | none => .error .indexError
        | some b1 =>
          if b1 < 128 then .error .singleByteNonCanonical
          else .ok (int_to_big_endian b0, .str, b0 - 128, start + 1)
      else .ok (int_to_big_endian b0, .str, b0 - 128, start + 1)
    else if b0 < 192 then
      let ll := b0 - 183
      if pySlice rlp (start + 1) (start + 2) = [0] then
        .error .lengthStartsWithZero
      else
        let len_bytes := pySlice rlp (start + 1) (start + 1 + ll)
        let l := big_endian_to_int len_bytes
        if l < 56 then .error .longStringForShort
        else .ok (int_to_big_endian b0 ++ len_bytes, .str, l, start + 1 + ll)
    else if b0 < 192 + 56 then
      .ok (int_to_big_endian b0, .list, b0 - 192, start + 1)
    else
      let ll := b0 - 192 - 56 + 1
      if pySlice rlp (start + 1) (start + 2) = [0] then
        .error .lengthStartsWithZero
      else
        let len_bytes := pySlice rlp (start + 1) (start + 1 + ll)
        let l := big_endian_to_int len_bytes
        if l < 56 then .error .longListForShort
        else .ok (int_to_big_endian b0 ++ len_bytes, .list, l, start + 1 + ll)

/-- A decoded item decorated with its provenance slice, exactly the pairs
built by `consume_payload`: `(item, prefix + item)` for a byte string and
`(items, prefix + concatenated child slices)` for a list. -/
inductive DItem where
  | str (payload : List Nat) (slice : List Nat)
  | list (children : List DItem) (slice : List Nat)

/-- The second component of the pair `consume_payload` returns. -/
def DItem.slice : DItem → List Nat
  | .str _ s => s
  | .list _ s => s

/-- The `list_rlp` accumulation `list_rlp += item[1]` over all children. -/
def joinSlices (items : List DItem) : List Nat :=
  (items.map DItem.slice).flatten

mutual
/-- Mirrors `consume_payload(rlp, prefix, start, type_, length)` in
`src/rlp/codec.py`.  For `bytes` the payload is the Python slice
`rlp[start : start + length]`; for `list` the `while` loop is
`consume_list_fuel`.  The fuel argument only forces termination. -/
def consume_payload_fuel : Nat → List Nat → List Nat → Nat → Kind → Nat →
    Except DecErr (DItem × Nat)
  | 0, _, _, _, _, _ => .error .fuel
  | _ + 1, rlp, pre, start, .str, length =>
      let item := pySlice rlp start (start + length)
      .ok (.str item (pre ++ item), start + length)
  | f + 1, rlp, pre, start, .list, length =>
      match consume_list_fuel f rlp start (start + length) with
      | .error e => .error e
      | .ok (items, fin) => .ok (.list items (pre ++ joinSlices items), fin)

/-- The `while next_item_start < end` loop of `consume_payload`, consuming
child items; after the loop, `if next_item_start > end` raises
`DecodingError('List length prefix announced a too small length')`. -/
def consume_list_fuel : Nat → List Nat → Nat → Nat → Except DecErr (List DItem × Nat)
  | 0, _, _, _ => .error .fuel
  | f + 1, rlp, pos, endPos =>
      if pos < endPos then
        match consume_length_prefix rlp pos with
        | .error e => .error e
        | .ok (p, t, l, s) =>
          match consume_payload_fuel f rlp p s t l with
          | .error e => .error e
          | .ok (item, pos') =>
            match consume_list_fuel f rlp pos' endPos with
            | .error e => .error e
            | .ok (items, fin) => .ok (item :: items, fin)
      else if endPos < pos then .error .listLengthMismatch
      else .ok ([], pos)
end

/-- Mirrors `consume_item(rlp, start)`: read the length prefix, then the
payload. -/
def consume_item_fuel (f : Nat) (rlp : List Nat) (start : Nat) :
    Except DecErr (DItem × Nat) :=
  match consume_length_prefix rlp start with
  | .error e => .error e
  | .ok (p, t, l, s) => consume_payload_fuel f rlp p s t l

/-- `consume_item(rlp, start)` with the concrete fuel `2 * rlp.length + 4`,
which `consume_item_fuel_sufficient` proves is never exhausted. -/
def consume_item (rlp : List Nat) (start : Nat) : Except DecErr (DItem × Nat) :=
  consume_item_fuel (2 * rlp.length + 4) rlp start

mutual
/-- The bare tree of a decorated item: the first components only, with the
provenance slices stripped (the item part of `_split_rlp_from_item`). -/
def bare : DItem → Tree
  | .str payload _ => .leaf payload
  | .list children _ => .node (bareList children)

def bareList : List DItem → List Tree
  | [] => []
  | d :: ds => bare d :: bareList ds
end

/-- Mirrors `decode(rlp, sedes=None, strict=strict)` in `src/rlp/codec.py`:
raw-decode from offset 0, convert `IndexError` to `DecodingError('RLP string
too short')`, enforce strictness, and return the bare tree (the
deserialization branch is not taken when no sedes is supplied). -/
def decode (rlp : List Nat) (strict : Bool) : Except DecErr Tree :=
  match consume_item rlp 0 with
  | .error .indexError => .error .rlpStringTooShort
  | .error e => .error e
  | .ok (item, endPos) =>
    if endPos ≠ rlp.length ∧ strict = true then .error .superfluousBytes
    else .ok (bare item)

/-! ### Facts about the big-endian conversions -/

theorem int_to_big_endian_aux_irrel : ∀ f g n, n ≤ f → n ≤ g →
    int_to_big_endian_aux f n = int_to_big_endian_aux g n := by
  intro f
  induction f with
  | zero =>
    intro g n hf _
    obtain rfl : n = 0 := Nat.le_zero.mp hf
    cases g <;> simp [int_to_big_endian_aux]
  | succ f ih =>
    intro g n hf hg
    match g with
    | 0 =>
      obtain rfl : n = 0 := Nat.le_zero.mp hg
      simp [int_to_big_endian_aux]
    | g + 1 =>
      by_cases hn : n = 0
      · subst hn
        simp [int_to_big_endian_aux]
      · have hdiv : n / 256 < n := Nat.div_lt_self (Nat.pos_of_ne_zero hn) (by norm_num)
        simp only [int_to_big_endian_aux, if_neg hn]
        rw [ih g (n / 256) (by omega) (by omega)]

/-- The defining recurrence of `int_to_big_endian`, with the fuel eliminated. -/
theorem int_to_big_endian_eq (n : Nat) :
    int_to_big_endian n =
      if n = 0 then [] else int_to_big_endian (n / 256) ++ [n % 256] := by
  by_cases hn : n = 0
  · subst hn
    simp [int_to_big_endian, int_to_big_endian_aux]
  · obtain ⟨m, rfl⟩ : ∃ m, n = m + 1 := ⟨n - 1, by omega⟩
    have hdiv : (m + 1) / 256 ≤ m := by
      have := Nat.div_lt_self (n := m + 1) (by omega) (by norm_num : 1 < 256)
      omega
    simp only [int_to_big_endian, if_neg hn]
    show int_to_big_endian_aux (m + 1) (m + 1) = _
    simp only [int_to_big_endian_aux, if_neg hn]
    rw [int_to_big_endian_aux_irrel m ((m + 1) / 256) ((m + 1) / 256) hdiv le_rfl]

theorem int_to_big_endian_zero : int_to_big_endian 0 = [] := rfl

theorem int_to_big_endian_ne_nil {n : Nat} (hn : n ≠ 0) : int_to_big_endian n ≠ [] := by
  rw [int_to_big_endian_eq, if_neg hn]
  simp

theorem int_to_big_endian_single {b : Nat} (h0 : 0 < b) (h256 : b < 256) :
    int_to_big_endian b = [b] := by
  rw [int_to_big_endian_eq, if_neg (by omega), Nat.div_eq_of_lt h256,
    Nat.mod_eq_of_lt h256, int_to_big_endian_zero]
  rfl

theorem int_to_big_endian_head_ne_zero :
    ∀ n, n ≠ 0 → (int_to_big_endian n).head? ≠ some 0 := by
  intro n
  induction n using Nat.strong_induction_on with
  | _ n ih =>
    intro hn
    rw [int_to_big_endian_eq, if_neg hn]
    by_cases hlt : n < 256
    · rw [Nat.div_eq_of_lt hlt, int_to_big_endian_zero, Nat.mod_eq_of_lt hlt]
      simpa using hn
    · have hpos : 0 < n / 256 := Nat.div_pos (by omega) (by norm_num)
      have hih := ih (n / 256) (Nat.div_lt_self (Nat.pos_of_ne_zero hn) (by norm_num)) (by omega)
      cases hc : int_to_big_endian (n / 256) with
      | nil => exact absurd hc (int_to_big_endian_ne_nil (by omega))
      | cons y ys =>
        rw [hc] at hih
        simpa using hih

theorem int_to_big_endian_valid : ∀ n, ∀ b ∈ int_to_big_endian n, b < 256 := by
  intro n
  induction n using Nat.strong_induction_on with
  | _ n ih =>
    intro b hb
    rw [int_to_big_endian_eq] at hb
    by_cases hn : n = 0
    · simp [hn] at hb
    · rw [if_neg hn] at hb
      rcases List.mem_append.mp hb with h | h
      · exact ih (n / 256) (Nat.div_lt_self (Nat.pos_of_ne_zero hn) (by norm_num)) b h
      · have : b = n % 256 := by simpa using h
        subst this
        exact Nat.mod_lt _ (by norm_num)

theorem int_to_big_endian_length_le : ∀ k n, n < 256 ^ k →
    (int_to_big_endian n).length ≤ k := by
  intro k
  induction k with
  | zero =>
    intro n hn
    obtain rfl : n = 0 := by simpa using hn
    simp [int_to_big_endian_zero]
  | succ k ih =>
    intro n hn
    by_cases h0 : n = 0
    · simp [h0, int_to_big_endian_zero]
    · rw [int_to_big_endian_eq, if_neg h0]
      have : n / 256 < 256 ^ k := by
        rw [Nat.div_lt_iff_lt_mul (by norm_num)]
        calc n < 256 ^ (k + 1) := hn
        _ = 256 ^ k * 256 := by ring
      simpa using ih (n / 256) this

theorem big_endian_to_int_nil : big_endian_to_int [] = 0 := rfl

theorem big_endian_to_int_append (bs : List Nat) (b : Nat) :
    big_endian_to_int (bs ++ [b]) = 256 * big_endian_to_int bs + b := by
  simp [big_endian_to_int, List.foldl_append]

theorem big_endian_to_int_of_int_to_big_endian :
    ∀ n, big_endian_to_int (int_to_big_endian n) = n := by
  intro n
  induction n using Nat.strong_induction_on with
  | _ n ih =>
    by_cases hn : n = 0
    · simp [hn, int_to_big_endian_zero, big_endian_to_int_nil]
    · rw [int_to_big_endian_eq, if_neg hn, big_endian_to_int_append,
        ih (n / 256) (Nat.div_lt_self (Nat.pos_of_ne_zero hn) (by norm_num))]
      omega

theorem big_endian_to_int_acc (bs : List Nat) :
    ∀ acc, bs.foldl (fun a b => 256 * a + b) acc =
      acc * 256 ^ bs.length + big_endian_to_int bs := by
  induction bs with
  | nil => intro acc; simp [big_endian_to_int]
  | cons b t ih =>
    intro acc
    have hb : big_endian_to_int (b :: t) = b * 256 ^ t.length + big_endian_to_int t := by
      show List.foldl _ (256 * 0 + b) t = _
      rw [ih (256 * 0 + b)]
      ring_nf
    show List.foldl _ (256 * acc + b) t = _
    rw [ih (256 * acc + b), hb]
    simp only [List.length_cons, pow_succ]
    ring

theorem big_endian_to_int_cons (b : Nat) (t : List Nat) :
    big_endian_to_int (b :: t) = b * 256 ^ t.length + big_endian_to_int t := by
  show List.foldl _ (256 * 0 + b) t = _
  rw [big_endian_to_int_acc t (256 * 0 + b)]
  ring_nf

theorem big_endian_to_int_lt : ∀ bs : List Nat, (∀ b ∈ bs, b < 256) →
    big_endian_to_int bs < 256 ^ bs.length := by
  intro bs
  induction bs with
  | nil => intro _; simp [big_endian_to_int_nil]
  | cons b t ih =>
    intro hv
    have hb : b < 256 := hv b (by simp)
    have ht := ih (fun x hx => hv x (by simp [hx]))
    rw [big_endian_to_int_cons]
    calc b * 256 ^ t.length + big_endian_to_int t
        ≤ 255 * 256 ^ t.length + big_endian_to_int t := by
          have : b ≤ 255 := by omega
          exact Nat.add_le_add_right (Nat.mul_le_mul_right _ this) _
      _ < 255 * 256 ^ t.length + 256 ^ t.length := by omega
      _ = 256 ^ (b :: t).length := by simp [List.length_cons]; ring

theorem int_to_big_endian_of_big_endian_to_int :
    ∀ bs : List Nat, (∀ b ∈ bs, b < 256) → bs.head? ≠ some 0 →
      int_to_big_endian (big_endian_to_int bs) = bs := by
  intro bs
  induction bs using List.reverseRecOn with
  | nil => intro _ _; simp [big_endian_to_int_nil, int_to_big_endian_zero]
  | append_singleton t b ih =>
    intro hv hh
    have hb : b < 256 := hv b (by simp)
    rw [big_endian_to_int_append]
    cases t with
    | nil =>
      have hbne : b ≠ 0 := by simpa using hh
      simp only [big_endian_to_int_nil, Nat.mul_zero, Nat.zero_add]
      exact int_to_big_endian_single (Nat.pos_of_ne_zero hbne) hb
    | cons x xs =>
      have hx : x ≠ 0 := by simpa using hh
      have hpos : 0 < big_endian_to_int (x :: xs) := by
        rw [big_endian_to_int_cons]
        have : 0 < x * 256 ^ xs.length := Nat.mul_pos (Nat.pos_of_ne_zero hx) (Nat.pos_pow_of_pos _ (by norm_num))
        omega
      have hprev : int_to_big_endian (big_endian_to_int (x :: xs)) = x :: xs :=
        ih (fun y hy => hv y (by
          simp only [List.cons_append, List.mem_cons, List.mem_append] at hy ⊢
          tauto)) (by simpa using hx)
      rw [int_to_big_endian_eq, if_neg (by positivity)]
      have hdiv : (256 * big_endian_to_int (x :: xs) + b) / 256 = big_endian_to_int (x :: xs) := by
        omega
      have hmod : (256 * big_endian_to_int (x :: xs) + b) % 256 = b := by
        omega
      rw [hdiv, hmod, hprev]

/-! ### Facts about Python slicing and indexing -/

theorem pySlice_length (rlp : List Nat) (a c : Nat) (hac : a ≤ c) (hc : c ≤ rlp.length) :
    (pySlice rlp a c).length = c - a := by
  simp only [pySlice, List.length_take, List.length_drop]
  omega

theorem pySlice_all (rlp : List Nat) : pySlice rlp 0 rlp.length = rlp := by
  simp [pySlice]

theorem pySlice_empty (rlp : List Nat) (a c : Nat) (h : c ≤ a) : pySlice rlp a c = [] := by
  simp [pySlice, Nat.sub_eq_zero_of_le h]

theorem pySlice_append_mid (pre mid post : List Nat) :
    pySlice (pre ++ mid ++ post) pre.length (pre.length + mid.length) = mid := by
  simp only [pySlice, List.append_assoc, List.drop_left, Nat.add_sub_cancel_left]
  exact List.take_left mid post

theorem pySlice_split (rlp : List Nat) (a m c : Nat) (h1 : a ≤ m) (h2 : m ≤ c) :
    pySlice rlp a c = pySlice rlp a m ++ pySlice rlp m c := by
  unfold pySlice
  have hsum : c - a = (m - a) + (c - m) := by omega
  have h3 : (rlp.drop a).drop (m - a) = rlp.drop m := by
    rw [List.drop_drop]
    congr 1
    omega
  rw [hsum, List.take_add, h3]

theorem pySlice_singleton {rlp : List Nat} {a x : Nat} (h : rlp[a]? = some x) :
    pySlice rlp a (a + 1) = [x] := by
  have ha : a < rlp.length := (List.getElem?_eq_some.mp h).1
  unfold pySlice
  rw [List.drop_eq_getElem_cons ha]
  simp only [Nat.add_sub_cancel_left, List.take_succ_cons, List.take_zero]
  have := List.getElem?_eq_some.mp h
  obtain ⟨_, hx⟩ := this
  simp [hx]

theorem getElem?_append_mid (pre mid post : List Nat) (i : Nat) (h : i < mid.length) :
    (pre ++ mid ++ post)[pre.length + i]? = mid[i]? := by
  rw [List.append_assoc, List.getElem?_append_right (by omega : pre.length ≤ pre.length + i)]
  rw [Nat.add_sub_cancel_left, List.getElem?_append_left h]

theorem validBytes_slice {rlp : List Nat} (hv : validBytes rlp) (a c : Nat) :
    validBytes (pySlice rlp a c) := fun b hb =>
  hv b (List.mem_of_mem_drop (List.mem_of_mem_take hb))

theorem validBytes_getElem {rlp : List Nat} {a b : Nat} (hv : validBytes rlp)
    (h : rlp[a]? = some b) : b < 256 := by
  obtain ⟨hlt, hx⟩ := List.getElem?_eq_some.mp h
  exact hx ▸ hv _ (List.getElem_mem hlt)

/-! ### Basic facts about the decoding functions -/

theorem consume_list_fuel_ok_end :
    ∀ (f : Nat) (rlp : List Nat) (pos endPos : Nat) (items : List DItem) (fin : Nat),
      consume_list_fuel f rlp pos endPos = .ok (items, fin) → fin = endPos := by
  intro f
  induction f with
  | zero => intro rlp pos endPos items fin h; simp [consume_list_fuel] at h
  | succ f ih =>
    intro rlp pos endPos items fin h
    rw [consume_list_fuel] at h
    split at h
    · cases hc : consume_length_prefix rlp pos with
      | error e => rw [hc] at h; simp at h
      | ok v =>
        rw [hc] at h
        obtain ⟨p, t, l, s⟩ := v
        simp only at h
        cases hp : consume_payload_fuel f rlp p s t l with
        | error e => rw [hp] at h; simp at h
        | ok w =>
          rw [hp] at h
          obtain ⟨item, pos'⟩ := w
          simp only at h
          cases hq : consume_list_fuel f rlp pos' endPos with
          | error e => rw [hq] at h; simp at h
          | ok u =>
            rw [hq] at h
            obtain ⟨items', fin'⟩ := u
            simp only [Except.ok.injEq, Prod.mk.injEq] at h
            exact h.2 ▸ ih rlp pos' endPos items' fin' hq
    · split at h
      · simp at h
      · simp only [Except.ok.injEq, Prod.mk.injEq] at h
        omega

theorem consume_payload_fuel_ok_end :
    ∀ (f : Nat) (rlp pre : List Nat) (start : Nat) (t : Kind) (l : Nat) (d : DItem) (e : Nat),
      consume_payload_fuel f rlp pre start t l = .ok (d, e) → e = start + l := by
  intro f rlp pre start t l d e h
  match f, t with
  | 0, _ => simp [consume_payload_fuel] at h
  | f + 1, .str =>
    simp only [consume_payload_fuel, Except.ok.injEq, Prod.mk.injEq] at h
    omega
  | f + 1, .list =>
    rw [consume_payload_fuel] at h
    cases hq : consume_list_fuel f rlp start (start + l) with
    | error e' => rw [hq] at h; simp at h
    | ok u =>
      rw [hq] at h
      obtain ⟨items, fin⟩ := u
      simp only [Except.ok.injEq, Prod.mk.injEq] at h
      exact h.2 ▸ consume_list_fuel_ok_end f rlp start (start + l) items fin hq

/-- Success of `consume_length_prefix` pins down the input byte and the
branch taken; this is the inversion principle used throughout. -/
theorem consume_length_prefix_ok_cases {rlp : List Nat} {start : Nat}
    {p : List Nat} {t : Kind} {l s : Nat}
    (h : consume_length_prefix rlp start = .ok (p, t, l, s)) :
    ∃ b0, rlp[start]? = some b0 ∧
      ((b0 < 128 ∧ p = [] ∧ t = .str ∧ l = 1 ∧ s = start) ∨
       (128 ≤ b0 ∧ b0 < 184 ∧ p = int_to_big_endian b0 ∧ t = .str ∧ l = b0 - 128 ∧
         s = start + 1 ∧ (b0 = 129 → ∃ b1, rlp[start + 1]? = some b1 ∧ 128 ≤ b1)) ∨
       (184 ≤ b0 ∧ b0 < 192 ∧ pySlice rlp (start + 1) (start + 2) ≠ [0] ∧
         p = int_to_big_endian b0 ++ pySlice rlp (start + 1) (start + 1 + (b0 - 183)) ∧
         t = .str ∧ l = big_endian_to_int (pySlice rlp (start + 1) (start + 1 + (b0 - 183))) ∧
         56 ≤ l ∧ s = start + 1 + (b0 - 183)) ∨
       (192 ≤ b0 ∧ b0 < 248 ∧ p = int_to_big_endian b0 ∧ t = .list ∧ l = b0 - 192 ∧
         s = start + 1) ∨
       (248 ≤ b0 ∧ pySlice rlp (start + 1) (start + 2) ≠ [0] ∧
         p = int_to_big_endian b0 ++ pySlice rlp (start + 1) (start + 1 + (b0 - 247)) ∧
         t = .list ∧ l = big_endian_to_int (pySlice rlp (start + 1) (start + 1 + (b0 - 247))) ∧
         56 ≤ l ∧ s = start + 1 + (b0 - 247))) := by
  unfold consume_length_prefix at h
  cases hb : rlp[start]? with
  | none => rw [hb] at h; simp at h
  | some b0 =>
    rw [hb] at h
    refine ⟨b0, rfl, ?_⟩
    simp only [SHORT_STRING] at h
    by_cases h1 : b0 < 128
    · rw [if_pos h1] at h
      simp only [Except.ok.injEq, Prod.mk.injEq] at h
      exact Or.inl ⟨h1, h.1.symm, h.2.1.symm, h.2.2.1.symm, h.2.2.2.symm⟩
    · rw [if_neg h1] at h
      by_cases h2 : b0 < 128 + 56
      · rw [if_pos h2] at h
        by_cases h3 : b0 - 128 = 1
        · rw [if_pos h3] at h
          cases hb1 : rlp[start + 1]? with
          | none => rw [hb1] at h; simp at h
          | some b1 =>
            rw [hb1] at h
            dsimp only at h
            by_cases h4 : b1 < 128
            · rw [if_pos h4] at h; simp at h
            · rw [if_neg h4] at h
              simp only [Except.ok.injEq, Prod.mk.injEq] at h
              exact Or.inr (Or.inl ⟨by omega, by omega, h.1.symm, h.2.1.symm,
                h.2.2.1.symm, h.2.2.2.symm, fun _ => ⟨b1, rfl, by omega⟩⟩)
        · rw [if_neg h3] at h
          simp only [Except.ok.injEq, Prod.mk.injEq] at h
          exact Or.inr (Or.inl ⟨by omega, by omega, h.1.symm, h.2.1.symm, h.2.2.1.symm,
            h.2.2.2.symm, fun hc => absurd (by omega : b0 - 128 = 1) h3⟩)
      · rw [if_neg h2] at h
        by_cases h4 : b0 < 192
        · rw [if_pos h4] at h
          by_cases h5 : pySlice rlp (start + 1) (start + 2) = [0]
          · rw [if_pos h5] at h; simp at h
          · rw [if_neg h5] at h
            by_cases h6 :
                big_endian_to_int (pySlice rlp (start + 1) (start + 1 + (b0 - 183))) < 56
            · rw [if_pos h6] at h; simp at h
            · rw [if_neg h6] at h
              simp only [Except.ok.injEq, Prod.mk.injEq] at h
              exact Or.inr (Or.inr (Or.inl ⟨by omega, by omega, h5, h.1.symm, h.2.1.symm,
                h.2.2.1.symm, by omega, h.2.2.2.symm⟩))
        · rw [if_neg h4] at h
          by_cases h7 : b0 < 192 + 56
          · rw [if_pos h7] at h
            simp only [Except.ok.injEq, Prod.mk.injEq] at h
            exact Or.inr (Or.inr (Or.inr (Or.inl ⟨by omega, by omega, h.1.symm, h.2.1.symm,
              h.2.2.1.symm, h.2.2.2.symm⟩)))
          · rw [if_neg h7] at h
            by_cases h8 : pySlice rlp (start + 1) (start + 2) = [0]
            · rw [if_pos h8] at h; simp at h
            · rw [if_neg h8] at h
              by_cases h9 :
                  big_endian_to_int
                    (pySlice rlp (start + 1) (start + 1 + (b0 - 192 - 56 + 1))) < 56
              · rw [if_pos h9] at h; simp at h
              · rw [if_neg h9] at h
                simp only [Except.ok.injEq, Prod.mk.injEq] at h
                have hll : b0 - 192 - 56 + 1 = b0 - 247 := by omega
                rw [hll] at h h9
                exact Or.inr (Or.inr (Or.inr (Or.inr ⟨by omega, h8, h.1.symm, h.2.1.symm,
                  h.2.2.1.symm, by omega, h.2.2.2.symm⟩)))

set_option maxRecDepth 4000 in
/-- Position facts from a successful prefix read: the prefix byte exists, the
payload start is at or after the prefix, the payload end is strictly after the
prefix position, and a list payload starts strictly after its prefix byte. -/
theorem consume_length_prefix_ok_facts {rlp : List Nat} {start : Nat}
    {p : List Nat} {t : Kind} {l s : Nat}
    (h : consume_length_prefix rlp start = .ok (p, t, l, s)) :
    start < rlp.length ∧ start ≤ s ∧ start < s + l ∧ (t = .list → start < s) := by
  obtain ⟨b0, hb, hc⟩ := consume_length_prefix_ok_cases h
  have hlen : start < rlp.length := (List.getElem?_eq_some.mp hb).1
  rcases hc with ⟨_, _, ht, hl, hs⟩ | ⟨_, _, _, ht, hl, hs, _⟩ |
      ⟨_, _, _, _, ht, hl, h56, hs⟩ | ⟨_, _, hp, ht, hl, hs⟩ | ⟨_, _, hp, ht, hl, h56, hs⟩ <;>
    subst ht <;> subst hs
  · exact ⟨hlen, le_rfl, by omega, fun hk => Kind.noConfusion hk⟩
  · exact ⟨hlen, by omega, by omega, fun hk => Kind.noConfusion hk⟩
  · exact ⟨hlen, by omega, by omega, fun hk => Kind.noConfusion hk⟩
  · exact ⟨hlen, by omega, by omega, fun _ => by omega⟩
  · exact ⟨hlen, by omega, by omega, fun _ => by omega⟩

/-- `consume_length_prefix` never reports fuel exhaustion (it contains no
loop); needed to show the fuel in `consume_item` is an artifact. -/
theorem consume_length_prefix_ne_fuel (rlp : List Nat) (start : Nat) :
    consume_length_prefix rlp start ≠ .error .fuel := by
  unfold consume_length_prefix
  cases rlp[start]? with
  | none => simp
  | some b0 =>
    dsimp only
    by_cases h1 : b0 < 128
    · simp [h1]
    · rw [if_neg h1]
      by_cases h2 : b0 < SHORT_STRING
      · rw [if_pos h2]
        by_cases h3 : b0 - 128 = 1
        · rw [if_pos h3]
          cases rlp[start + 1]? with
          | none => simp
          | some b1 =>
            dsimp only
            by_cases h4 : b1 < 128 <;> simp [h4]
        · simp [h3]
      · rw [if_neg h2]
        by_cases h4 : b0 < 192
        · rw [if_pos h4]
          by_cases h5 : pySlice rlp (start + 1) (start + 2) = [0]
          · simp [h5]
          · rw [if_neg h5]
            by_cases h6 :
                big_endian_to_int (pySlice rlp (start + 1) (start + 1 + (b0 - 183))) < 56 <;>
              simp [h6]
        · rw [if_neg h4]
          by_cases h7 : b0 < 192 + 56
          · simp [h7]
          · rw [if_neg h7]
            by_cases h8 : pySlice rlp (start + 1) (start + 2) = [0]
            · simp [h8]
            · rw [if_neg h8]
              by_cases h9 :
                  big_endian_to_int
                    (pySlice rlp (start + 1) (start + 1 + (b0 - 192 - 56 + 1))) < 56 <;>
                simp [h9]

/-! ### Forward evaluation of `consume_length_prefix` on each prefix shape -/

theorem clp_eval_single {rlp : List Nat} {start b0 : Nat}
    (hb : rlp[start]? = some b0) (h1 : b0 < 128) :
    consume_length_prefix rlp start = .ok ([], .str, 1, start) := by
  unfold consume_length_prefix
  rw [hb]
  simp [h1]

theorem clp_eval_short_str {rlp : List Nat} {start b0 : Nat}
    (hb : rlp[start]? = some b0) (h1 : 128 ≤ b0) (h2 : b0 < 184) (h3 : b0 ≠ 129) :
    consume_length_prefix rlp start =
      .ok (int_to_big_endian b0, .str, b0 - 128, start + 1) := by
  unfold consume_length_prefix
  rw [hb]
  dsimp only
  rw [if_neg (by omega), if_pos (by simp only [SHORT_STRING]; omega), if_neg (by omega)]

theorem clp_eval_short_str_one {rlp : List Nat} {start b0 b1 : Nat}
    (hb : rlp[start]? = some b0) (hb0 : b0 = 129)
    (hb1 : rlp[start + 1]? = some b1) (h1 : 128 ≤ b1) :
    consume_length_prefix rlp start =
      .ok (int_to_big_endian b0, .str, b0 - 128, start + 1) := by
  unfold consume_length_prefix
  rw [hb]
  dsimp only
  rw [if_neg (by omega), if_pos (by simp only [SHORT_STRING]; omega), if_pos (by omega), hb1]
  dsimp only
  rw [if_neg (by omega)]

theorem clp_eval_long_str {rlp : List Nat} {start b0 : Nat}
    (hb : rlp[start]? = some b0) (h1 : 184 ≤ b0) (h2 : b0 < 192)
    (hz : pySlice rlp (start + 1) (start + 2) ≠ [0])
    (h56 : 56 ≤ big_endian_to_int (pySlice rlp (start + 1) (start + 1 + (b0 - 183)))) :
    consume_length_prefix rlp start =
      .ok (int_to_big_endian b0 ++ pySlice rlp (start + 1) (start + 1 + (b0 - 183)), .str,
        big_endian_to_int (pySlice rlp (start + 1) (start + 1 + (b0 - 183))),
        start + 1 + (b0 - 183)) := by
  unfold consume_length_prefix
  rw [hb]
  dsimp only
  rw [if_neg (by omega), if_neg (by simp only [SHORT_STRING]; omega), if_pos (by omega)]
  rw [if_neg hz, if_neg (by omega)]

theorem clp_eval_short_list {rlp : List Nat} {start b0 : Nat}
    (hb : rlp[start]? = some b0) (h1 : 192 ≤ b0) (h2 : b0 < 248) :
    consume_length_prefix rlp start =
      .ok (int_to_big_endian b0, .list, b0 - 192, start + 1) := by
  unfold consume_length_prefix
  rw [hb]
  dsimp only
  rw [if_neg (by omega), if_neg (by simp only [SHORT_STRING]; omega), if_neg (by omega),
    if_pos (by omega)]

theorem clp_eval_long_list {rlp : List Nat} {start b0 : Nat}
    (hb : rlp[start]? = some b0) (h1 : 248 ≤ b0)
    (hz : pySlice rlp (start + 1) (start + 2) ≠ [0])
    (h56 : 56 ≤ big_endian_to_int (pySlice rlp (start + 1) (start + 1 + (b0 - 247)))) :
    consume_length_prefix rlp start =
      .ok (int_to_big_endian b0 ++ pySlice rlp (start + 1) (start + 1 + (b0 - 247)), .list,
        big_endian_to_int (pySlice rlp (start + 1) (start + 1 + (b0 - 247))),
        start + 1 + (b0 - 247)) := by
  have harith : b0 - 192 - 56 + 1 = b0 - 247 := by omega
  unfold consume_length_prefix
  rw [hb]
  dsimp only
  rw [if_neg (by omega), if_neg (by simp only [SHORT_STRING]; omega), if_neg (by omega),
    if_neg (by omega)]
  rw [harith, if_neg hz, if_neg (by omega)]

/-- The fuel threaded through the decoder is always sufficient: every loop
iteration reads a prefix at a strictly increasing position that must lie
inside the input, so fuel linear in the input length can never run out. -/
theorem consume_fuel_sufficient :
    ∀ f : Nat,
      (∀ rlp pre start l, 2 * (rlp.length - start) + 4 ≤ f →
        consume_payload_fuel f rlp pre start .list l ≠ .error .fuel) ∧
      (∀ rlp pre start l, 1 ≤ f →
        consume_payload_fuel f rlp pre start .str l ≠ .error .fuel) ∧
      (∀ rlp pos endPos, 2 * (rlp.length - pos) + 3 ≤ f →
        consume_list_fuel f rlp pos endPos ≠ .error .fuel) := by
  intro f
  induction f with
  | zero =>
    exact ⟨fun _ _ _ _ h => absurd h (by omega), fun _ _ _ _ h => absurd h (by omega),
      fun _ _ _ h => absurd h (by omega)⟩
  | succ f ih =>
    obtain ⟨ihl, ihs, ihL⟩ := ih
    refine ⟨?_, ?_, ?_⟩
    · intro rlp pre start l hf hcontra
      rw [consume_payload_fuel] at hcontra
      cases hq : consume_list_fuel f rlp start (start + l) with
      | error e =>
        rw [hq] at hcontra
        dsimp only at hcontra
        injection hcontra with he
        exact ihL rlp start (start + l) (by omega) (he ▸ hq)
      | ok u =>
        obtain ⟨items, fin⟩ := u
        rw [hq] at hcontra
        dsimp only at hcontra
        exact Except.noConfusion hcontra
    · intro rlp pre start l _ hcontra
      rw [consume_payload_fuel] at hcontra
      exact Except.noConfusion hcontra
    · intro rlp pos endPos hf hcontra
      rw [consume_list_fuel] at hcontra
      split at hcontra
      · cases hc : consume_length_prefix rlp pos with
        | error e =>
          rw [hc] at hcontra
          dsimp only at hcontra
          injection hcontra with he
          exact consume_length_prefix_ne_fuel rlp pos (he ▸ hc)
        | ok v =>
          obtain ⟨p, t, l, s⟩ := v
          rw [hc] at hcontra
          dsimp only at hcontra
          obtain ⟨hpos, hs, hsl, hlist⟩ := consume_length_prefix_ok_facts hc
          cases hp : consume_payload_fuel f rlp p s t l with
          | error e =>
            rw [hp] at hcontra
            dsimp only at hcontra
            injection hcontra with he
            subst he
            cases t with
            | str => exact ihs rlp p s l (by omega) hp
            | list =>
              have hps : pos < s := hlist rfl
              exact ihl rlp p s l (by omega) hp
          | ok w =>
            obtain ⟨item, pos'⟩ := w
            rw [hp] at hcontra
            dsimp only at hcontra
            have hpos' : pos' = s + l :=
              consume_payload_fuel_ok_end f rlp p s t l item pos' hp
            cases hq : consume_list_fuel f rlp pos' endPos with
            | error e =>
              rw [hq] at hcontra
              dsimp only at hcontra
              injection hcontra with he
              subst he
              exact ihL rlp pos' endPos (by omega) hq
            | ok u =>
              obtain ⟨items, fin⟩ := u
              rw [hq] at hcontra
              dsimp only at hcontra
              exact Except.noConfusion hcontra
      · split at hcontra
        · injection hcontra with he
          exact DecErr.noConfusion he
        · exact Except.noConfusion hcontra

/-- With the concrete fuel `2 * rlp.length + 4`, `consume_item` never reports
fuel exhaustion: the fuel is purely a termination device and the wrapped
functions compute what the Python code computes. -/
theorem consume_item_ne_fuel (rlp : List Nat) (start : Nat) :
    consume_item rlp start ≠ .error .fuel := by
  unfold consume_item consume_item_fuel
  cases hc : consume_length_prefix rlp start with
  | error e =>
    dsimp only
    intro hcontra
    injection hcontra with he
    exact consume_length_prefix_ne_fuel rlp start (he ▸ hc)
  | ok v =>
    obtain ⟨p, t, l, s⟩ := v
    dsimp only
    cases t with
    | str => exact (consume_fuel_sufficient _).2.1 rlp p s l (by omega)
    | list => exact (consume_fuel_sufficient _).1 rlp p s l (by omega)

/-! ### Inversion lemmas on the encoding side -/

theorem length_prefix_ok_cases {L o : Nat} {pre : List Nat}
    (h : length_prefix L o = .ok pre) :
    (L < 56 ∧ pre = [o + L]) ∨
    (56 ≤ L ∧ L < LONG_LENGTH ∧
      pre = (o + 56 - 1 + (int_to_big_endian L).length) :: int_to_big_endian L) := by
  unfold length_prefix at h
  split_ifs at h with h1 h2
  · simp only [Except.ok.injEq] at h
    exact Or.inl ⟨h1, h.symm⟩
  · simp only [Except.ok.injEq] at h
    refine Or.inr ⟨by omega, h2, ?_⟩
    rw [← h]
    rfl

theorem encode_raw_leaf_cases {item enc : List Nat}
    (h : encode_raw (.leaf item) = .ok enc) :
    (item.length = 1 ∧ item.headD 0 < 128 ∧ enc = item) ∨
    (¬(item.length = 1 ∧ item.headD 0 < 128) ∧
      ∃ pre2, length_prefix item.length 128 = .ok pre2 ∧ enc = pre2 ++ item) := by
  rw [encode_raw] at h
  split_ifs at h with h1
  · simp only [Except.ok.injEq] at h
    exact Or.inl ⟨h1.1, h1.2, h.symm⟩
  · cases hp : length_prefix item.length 128 with
    | ok pre2 =>
      rw [hp] at h
      dsimp only at h
      simp only [Except.ok.injEq] at h
      exact Or.inr ⟨h1, pre2, rfl, h.symm⟩
    | error e =>
      rw [hp] at h
      exact Except.noConfusion h

theorem encode_raw_node_cases {xs : List Tree} {enc : List Nat}
    (h : encode_raw (.node xs) = .ok enc) :
    ∃ payload pre2, encode_list xs = .ok payload ∧
      length_prefix payload.length 192 = .ok pre2 ∧ enc = pre2 ++ payload := by
  rw [encode_raw] at h
  cases he : encode_list xs with
  | error e =>
    rw [he] at h
    exact Except.noConfusion h
  | ok payload =>
    rw [he] at h
    dsimp only at h
    cases hp : length_prefix payload.length 192 with
    | ok pre2 =>
      rw [hp] at h
      dsimp only at h
      simp only [Except.ok.injEq] at h
      exact ⟨payload, pre2, rfl, hp, h.symm⟩
    | error e =>
      rw [hp] at h
      exact Except.noConfusion h

theorem encode_list_cons_ok {x : Tree} {xs : List Tree} {payload : List Nat}
    (h : encode_list (x :: xs) = .ok payload) :
    ∃ e rest, encode_raw x = .ok e ∧ encode_list xs = .ok rest ∧ payload = e ++ rest := by
  rw [encode_list] at h
  cases he : encode_raw x with
  | error e =>
    rw [he] at h
    exact Except.noConfusion h
  | ok e =>
    cases hr : encode_list xs with
    | error e' =>
      rw [he, hr] at h
      exact Except.noConfusion h
    | ok rest =>
      rw [he, hr] at h
      dsimp only at h
      simp only [Except.ok.injEq] at h
      exact ⟨e, rest, rfl, rfl, h.symm⟩

theorem encode_list_nil_ok {payload : List Nat}
    (h : encode_list [] = .ok payload) : payload = [] := by
  rw [encode_list] at h
  simpa using h.symm

theorem encode_raw_ok_length_pos {t : Tree} {enc : List Nat}
    (h : encode_raw t = .ok enc) : 0 < enc.length := by
  cases t with
  | leaf item =>
    rcases encode_raw_leaf_cases h with ⟨h1, _, rfl⟩ | ⟨_, pre2, hp, rfl⟩
    · omega
    · rcases length_prefix_ok_cases hp with ⟨_, rfl⟩ | ⟨_, _, rfl⟩ <;> simp
  | node xs =>
    obtain ⟨payload, pre2, _, hp, rfl⟩ := encode_raw_node_cases h
    rcases length_prefix_ok_cases hp with ⟨_, rfl⟩ | ⟨_, _, rfl⟩ <;> simp

/-! ### Decoding an encoded leaf embedded in a buffer -/

theorem getElem?_mid_head (pre post mrest : List Nat) (b0 : Nat) :
    (pre ++ (b0 :: mrest) ++ post)[pre.length]? = some b0 := by
  have := getElem?_append_mid pre (b0 :: mrest) post 0 (by simp)
  simpa using this

theorem getElem?_mid_one (pre post mrest : List Nat) (b0 b1 : Nat) :
    (pre ++ (b0 :: b1 :: mrest) ++ post)[pre.length + 1]? = some b1 := by
  have := getElem?_append_mid pre (b0 :: b1 :: mrest) post 1 (by simp)
  simpa using this

theorem pySlice_mid_of_eq (pre mid post : List Nat) (a c : Nat)
    (ha : a = pre.length) (hc : c = pre.length + mid.length) :
    pySlice (pre ++ mid ++ post) a c = mid := by
  subst ha
  subst hc
  exact pySlice_append_mid pre mid post

theorem leaf_decode_single (pre post : List Nat) (b : Nat) (f : Nat)
    (hb : b < 128) (hf : 1 ≤ f) :
    consume_item_fuel f (pre ++ [b] ++ post) pre.length =
      .ok (.str [b] [b], pre.length + 1) := by
  obtain ⟨f', rfl⟩ : ∃ f', f = f' + 1 := ⟨f - 1, by omega⟩
  have hidx : (pre ++ [b] ++ post)[pre.length]? = some b := getElem?_mid_head pre post [] b
  rw [consume_item_fuel, clp_eval_single hidx hb]
  dsimp only
  rw [consume_payload_fuel]
  rw [pySlice_singleton hidx]
  simp

theorem leaf_decode_short (pre post item : List Nat) (f : Nat)
    (h1 : ¬(item.length = 1 ∧ item.headD 0 < 128)) (hlen : item.length < 56) (hf : 1 ≤ f) :
    consume_item_fuel f (pre ++ ((128 + item.length) :: item) ++ post) pre.length =
      .ok (.str item ((128 + item.length) :: item), pre.length + 1 + item.length) := by
  obtain ⟨f', rfl⟩ : ∃ f', f = f' + 1 := ⟨f - 1, by omega⟩
  have hidx : (pre ++ ((128 + item.length) :: item) ++ post)[pre.length]? =
      some (128 + item.length) := getElem?_mid_head pre post item _
  have hibe : int_to_big_endian (128 + item.length) = [128 + item.length] :=
    int_to_big_endian_single (by omega) (by omega)
  have hslice : pySlice (pre ++ ((128 + item.length) :: item) ++ post)
      (pre.length + 1) (pre.length + 1 + item.length) = item := by
    have : pre ++ ((128 + item.length) :: item) ++ post =
        (pre ++ [128 + item.length]) ++ item ++ post := by simp
    rw [this]
    exact pySlice_mid_of_eq _ _ _ _ _ (by simp) (by simp; try omega)
  by_cases hone : item.length = 1
  · obtain ⟨c, rfl⟩ : ∃ c, item = [c] := by
      cases item with
      | nil => simp at hone
      | cons c cs =>
        cases cs with
        | nil => exact ⟨c, rfl⟩
        | cons d ds => simp at hone
    have hc : 128 ≤ c := by
      by_contra hcon
      apply h1
      refine ⟨by simp, ?_⟩
      simp only [List.headD_cons]
      omega
    have hidx1 : (pre ++ ((128 + 1) :: [c]) ++ post)[pre.length + 1]? = some c := by
      have := getElem?_mid_one pre post [] (128 + 1) c
      simpa using this
    rw [consume_item_fuel]
    have heval := @clp_eval_short_str_one (pre ++ ((128 + [c].length) :: [c]) ++ post)
      pre.length (128 + [c].length) c (by simpa using hidx) (by simp) (by simpa using hidx1) hc
    rw [heval]
    dsimp only
    rw [consume_payload_fuel]
    have : (128 + [c].length - 128) = [c].length := by omega
    rw [this]
    rw [hslice]
    simp [int_to_big_endian_single (by norm_num : (0 : Nat) < 129) (by norm_num : (129 : Nat) < 256)]
  · rw [consume_item_fuel]
    rw [clp_eval_short_str hidx (by omega) (by omega) (by omega)]
    dsimp only
    rw [consume_payload_fuel]
    have harith : 128 + item.length - 128 = item.length := by omega
    rw [harith, hslice]
    simp [hibe]

/-- Reading the prefix of a long-form string encoding embedded in a buffer. -/
theorem clp_at_long_str_encoding (pre post tail : List Nat) (L : Nat)
    (h56 : 56 ≤ L) (hbig : L < LONG_LENGTH) :
    consume_length_prefix
        (pre ++ ((183 + (int_to_big_endian L).length) :: (int_to_big_endian L ++ tail)) ++ post)
        pre.length =
      .ok ((183 + (int_to_big_endian L).length) :: int_to_big_endian L, .str, L,
        pre.length + 1 + (int_to_big_endian L).length) := by
  have hpos : L ≠ 0 := by omega
  obtain ⟨h0, htl, hibe⟩ : ∃ h0 htl, int_to_big_endian L = h0 :: htl := by
    cases hc : int_to_big_endian L with
    | nil => exact absurd hc (int_to_big_endian_ne_nil hpos)
    | cons a as => exact ⟨a, as, rfl⟩
  have hk1 : 1 ≤ (int_to_big_endian L).length := by rw [hibe]; simp
  have hk8 : (int_to_big_endian L).length ≤ 8 :=
    int_to_big_endian_length_le 8 L (by simpa [LONG_LENGTH] using hbig)
  have hidx : (pre ++ ((183 + (int_to_big_endian L).length) ::
      (int_to_big_endian L ++ tail)) ++ post)[pre.length]? =
      some (183 + (int_to_big_endian L).length) := getElem?_mid_head pre post _ _
  have hmid : (183 + (int_to_big_endian L).length) :: (int_to_big_endian L ++ tail) =
      (183 + (int_to_big_endian L).length) :: h0 :: (htl ++ tail) := by
    rw [hibe]
    simp
  have hidx1 : (pre ++ ((183 + (int_to_big_endian L).length) ::
      (int_to_big_endian L ++ tail)) ++ post)[pre.length + 1]? = some h0 := by
    rw [hmid]
    exact getElem?_mid_one pre post _ _ _
  have hh0 : h0 ≠ 0 := by
    have := int_to_big_endian_head_ne_zero L hpos
    rw [hibe] at this
    simpa using this
  have hz : pySlice (pre ++ ((183 + (int_to_big_endian L).length) ::
      (int_to_big_endian L ++ tail)) ++ post) (pre.length + 1) (pre.length + 2) ≠ [0] := by
    have h2 : pre.length + 2 = pre.length + 1 + 1 := by omega
    rw [h2, pySlice_singleton hidx1]
    simp [hh0]
  have harith : 183 + (int_to_big_endian L).length - 183 = (int_to_big_endian L).length := by
    omega
  have hlenslice : pySlice (pre ++ ((183 + (int_to_big_endian L).length) ::
      (int_to_big_endian L ++ tail)) ++ post) (pre.length + 1)
      (pre.length + 1 + (int_to_big_endian L).length) = int_to_big_endian L := by
    have hre : pre ++ ((183 + (int_to_big_endian L).length) ::
        (int_to_big_endian L ++ tail)) ++ post =
        (pre ++ [183 + (int_to_big_endian L).length]) ++ int_to_big_endian L ++
          (tail ++ post) := by simp
    rw [hre]
    exact pySlice_mid_of_eq _ _ _ _ _ (by simp) (by simp [Nat.add_assoc])
  have hbe : 56 ≤ big_endian_to_int (pySlice (pre ++ ((183 + (int_to_big_endian L).length) ::
      (int_to_big_endian L ++ tail)) ++ post) (pre.length + 1)
      (pre.length + 1 + (183 + (int_to_big_endian L).length - 183))) := by
    rw [harith, hlenslice, big_endian_to_int_of_int_to_big_endian]
    exact h56
  rw [clp_eval_long_str hidx (by omega) (by omega) hz hbe]
  rw [harith, hlenslice, big_endian_to_int_of_int_to_big_endian,
    int_to_big_endian_single (by omega) (by omega)]
  rfl

/-- Reading the prefix of a long-form list encoding embedded in a buffer. -/
theorem clp_at_long_list_encoding (pre post tail : List Nat) (L : Nat)
    (h56 : 56 ≤ L) (hbig : L < LONG_LENGTH) :
    consume_length_prefix
        (pre ++ ((247 + (int_to_big_endian L).length) :: (int_to_big_endian L ++ tail)) ++ post)
        pre.length =
      .ok ((247 + (int_to_big_endian L).length) :: int_to_big_endian L, .list, L,
        pre.length + 1 + (int_to_big_endian L).length) := by
  have hpos : L ≠ 0 := by omega
  obtain ⟨h0, htl, hibe⟩ : ∃ h0 htl, int_to_big_endian L = h0 :: htl := by
    cases hc : int_to_big_endian L with
    | nil => exact absurd hc (int_to_big_endian_ne_nil hpos)
    | cons a as => exact ⟨a, as, rfl⟩
  have hk1 : 1 ≤ (int_to_big_endian L).length := by rw [hibe]; simp
  have hk8 : (int_to_big_endian L).length ≤ 8 :=
    int_to_big_endian_length_le 8 L (by simpa [LONG_LENGTH] using hbig)
  have hidx : (pre ++ ((247 + (int_to_big_endian L).length) ::
      (int_to_big_endian L ++ tail)) ++ post)[pre.length]? =
      some (247 + (int_to_big_endian L).length) := getElem?_mid_head pre post _ _
  have hmid : (247 + (int_to_big_endian L).length) :: (int_to_big_endian L ++ tail) =
      (247 + (int_to_big_endian L).length) :: h0 :: (htl ++ tail) := by
    rw [hibe]
    simp
  have hidx1 : (pre ++ ((247 + (int_to_big_endian L).length) ::
      (int_to_big_endian L ++ tail)) ++ post)[pre.length + 1]? = some h0 := by
    rw [hmid]
    exact getElem?_mid_one pre post _ _ _
  have hh0 : h0 ≠ 0 := by
    have := int_to_big_endian_head_ne_zero L hpos
    rw [hibe] at this
    simpa using this
  have hz : pySlice (pre ++ ((247 + (int_to_big_endian L).length) ::
      (int_to_big_endian L ++ tail)) ++ post) (pre.length + 1) (pre.length + 2) ≠ [0] := by
    have h2 : pre.length + 2 = pre.length + 1 + 1 := by omega
    rw [h2, pySlice_singleton hidx1]
    simp [hh0]
  have harith : 247 + (int_to_big_endian L).length - 247 = (int_to_big_endian L).length := by
    omega
  have hlenslice : pySlice (pre ++ ((247 + (int_to_big_endian L).length) ::
      (int_to_big_endian L ++ tail)) ++ post) (pre.length + 1)
      (pre.length + 1 + (int_to_big_endian L).length) = int_to_big_endian L := by
    have hre : pre ++ ((247 + (int_to_big_endian L).length) ::
        (int_to_big_endian L ++ tail)) ++ post =
        (pre ++ [247 + (int_to_big_endian L).length]) ++ int_to_big_endian L ++
          (tail ++ post) := by simp
    rw [hre]
    exact pySlice_mid_of_eq _ _ _ _ _ (by simp) (by simp [Nat.add_assoc])
  have hbe : 56 ≤ big_endian_to_int (pySlice (pre ++ ((247 + (int_to_big_endian L).length) ::
      (int_to_big_endian L ++ tail)) ++ post) (pre.length + 1)
      (pre.length + 1 + (247 + (int_to_big_endian L).length - 247))) := by
    rw [harith, hlenslice, big_endian_to_int_of_int_to_big_endian]
    exact h56
  rw [clp_eval_long_list hidx (by omega) hz hbe]
  rw [harith, hlenslice, big_endian_to_int_of_int_to_big_endian,
    int_to_big_endian_single (by omega) (by omega)]
  rfl

theorem leaf_decode_long (pre post item : List Nat) (f : Nat)
    (h56 : 56 ≤ item.length) (hbig : item.length < LONG_LENGTH) (hf : 1 ≤ f) :
    consume_item_fuel f
        (pre ++ ((183 + (int_to_big_endian item.length).length) ::
          (int_to_big_endian item.length ++ item)) ++ post) pre.length =
      .ok (.str item ((183 + (int_to_big_endian item.length).length) ::
          (int_to_big_endian item.length ++ item)),
        pre.length + 1 + (int_to_big_endian item.length).length + item.length) := by
  obtain ⟨f', rfl⟩ : ∃ f', f = f' + 1 := ⟨f - 1, by omega⟩
  rw [consume_item_fuel, clp_at_long_str_encoding pre post item item.length h56 hbig]
  dsimp only
  rw [consume_payload_fuel]
  have hslice : pySlice (pre ++ ((183 + (int_to_big_endian item.length).length) ::
      (int_to_big_endian item.length ++ item)) ++ post)
      (pre.length + 1 + (int_to_big_endian item.length).length)
      (pre.length + 1 + (int_to_big_endian item.length).length + item.length) = item := by
    have hre : pre ++ ((183 + (int_to_big_endian item.length).length) ::
        (int_to_big_endian item.length ++ item)) ++ post =
        (pre ++ ((183 + (int_to_big_endian item.length).length) ::
          int_to_big_endian item.length)) ++ item ++ post := by simp
    rw [hre]
    exact pySlice_mid_of_eq _ _ _ _ _ (by simp; omega) (by simp; omega)
  rw [hslice]
  simp

/-- Main encode/decode round-trip, by strong induction on the encoded length:
an `encode_raw` output embedded at any buffer position decodes back to the
original tree, consuming exactly the encoding. -/
theorem encode_decode_aux :
    ∀ n : Nat,
      (∀ t enc pre post f, encode_raw t = .ok enc → enc.length ≤ n →
        2 * enc.length ≤ f →
        ∃ d, consume_item_fuel f (pre ++ enc ++ post) pre.length =
            .ok (d, pre.length + enc.length) ∧ bare d = t) ∧
      (∀ ts payload pre post f, encode_list ts = .ok payload → payload.length < n →
        2 * payload.length + 1 ≤ f →
        ∃ ds, consume_list_fuel f (pre ++ payload ++ post) pre.length
            (pre.length + payload.length) = .ok (ds, pre.length + payload.length) ∧
          bareList ds = ts) := by
  intro n
  induction n using Nat.strong_induction_on with
  | _ n ih =>
    have listPart : ∀ ts payload pre post f, encode_list ts = .ok payload →
        payload.length < n → 2 * payload.length + 1 ≤ f →
        ∃ ds, consume_list_fuel f (pre ++ payload ++ post) pre.length
            (pre.length + payload.length) = .ok (ds, pre.length + payload.length) ∧
          bareList ds = ts := by
      intro ts payload pre post f he hlen hf
      cases ts with
      | nil =>
        obtain rfl := encode_list_nil_ok he
        obtain ⟨f', rfl⟩ : ∃ f', f = f' + 1 := ⟨f - 1, by omega⟩
        refine ⟨[], ?_, rfl⟩
        rw [consume_list_fuel]
        simp
      | cons x xs =>
        obtain ⟨e1, rest, he1, hrest, rfl⟩ := encode_list_cons_ok he
        have he1pos := encode_raw_ok_length_pos he1
        obtain ⟨f', rfl⟩ : ∃ f', f = f' + 1 := ⟨f - 1, by omega⟩
        simp only [List.length_append] at hlen hf
        obtain ⟨d1, hd1, hbare1⟩ := (ih (n - 1) (by omega)).1 x e1 pre (rest ++ post) f' he1
          (by omega) (by omega)
        obtain ⟨ds, hds, hbares⟩ := (ih (n - 1) (by omega)).2 xs rest (pre ++ e1) post f' hrest
          (by omega) (by omega)
        have hds' : consume_list_fuel f' (pre ++ e1 ++ (rest ++ post))
            (pre.length + e1.length) (pre.length + (e1 ++ rest).length) =
            .ok (ds, pre.length + (e1 ++ rest).length) := by
          have hb2 : (pre ++ e1) ++ rest ++ post = pre ++ e1 ++ (rest ++ post) := by simp
          have hl2 : (pre ++ e1).length = pre.length + e1.length := by simp
          have hl3 : pre.length + e1.length + rest.length =
              pre.length + (e1 ++ rest).length := by simp [Nat.add_assoc]
          rw [hb2, hl2, hl3] at hds
          exact hds
        refine ⟨d1 :: ds, ?_, by rw [bareList, hbare1, hbares]⟩
        rw [consume_list_fuel]
        rw [if_pos (by simp; omega)]
        have hbuf : pre ++ (e1 ++ rest) ++ post = pre ++ e1 ++ (rest ++ post) := by simp
        rw [hbuf]
        rw [consume_item_fuel] at hd1
        cases hc : consume_length_prefix (pre ++ e1 ++ (rest ++ post)) pre.length with
        | error e =>
          rw [hc] at hd1
          exact absurd hd1 (by simp)
        | ok v =>
          obtain ⟨p, t, l, s⟩ := v
          rw [hc] at hd1
          dsimp only at hd1
          dsimp only
          rw [hd1]
          dsimp only
          rw [hds']
    have itemPart : ∀ t enc pre post f, encode_raw t = .ok enc → enc.length ≤ n →
        2 * enc.length ≤ f →
        ∃ d, consume_item_fuel f (pre ++ enc ++ post) pre.length =
            .ok (d, pre.length + enc.length) ∧ bare d = t := by
      intro t enc pre post f he hlen hf
      have hpos := encode_raw_ok_length_pos he
      cases t with
      | leaf item =>
        rcases encode_raw_leaf_cases he with ⟨hl1, hhead, rfl⟩ | ⟨h1, pre2, hp, rfl⟩
        · obtain ⟨b, rfl⟩ : ∃ b, enc = [b] := by
            cases enc with
            | nil => simp at hl1
            | cons c cs =>
              cases cs with
              | nil => exact ⟨c, rfl⟩
              | cons d ds => simp at hl1
          have hb : b < 128 := by simpa using hhead
          exact ⟨.str [b] [b], leaf_decode_single pre post b f hb (by simp at hf; omega), rfl⟩
        · rcases length_prefix_ok_cases hp with ⟨hsm, rfl⟩ | ⟨h56, hbig, rfl⟩
          · have hgoal := leaf_decode_short pre post item f h1 hsm (by simp at hf; omega)
            have harr : pre.length + 1 + item.length =
                pre.length + ([128 + item.length] ++ item).length := by
              simp
              omega
            rw [harr] at hgoal
            exact ⟨_, hgoal, rfl⟩
          · have hgoal := leaf_decode_long pre post item f h56 hbig (by simp at hf; omega)
            have harr : pre.length + 1 + (int_to_big_endian item.length).length + item.length =
                pre.length + (((128 + 56 - 1 + (int_to_big_endian item.length).length) ::
                  int_to_big_endian item.length) ++ item).length := by
              simp
              omega
            rw [harr] at hgoal
            exact ⟨_, hgoal, rfl⟩
      | node xs =>
        obtain ⟨payload, pre2, hel, hp, rfl⟩ := encode_raw_node_cases he
        rcases length_prefix_ok_cases hp with ⟨hsm, rfl⟩ | ⟨h56, hbig, rfl⟩
        · simp only [List.singleton_append, List.length_cons] at hlen hf ⊢
          obtain ⟨f', rfl⟩ : ∃ f', f = f' + 1 := ⟨f - 1, by omega⟩
          obtain ⟨ds, hds, hbars⟩ := listPart xs payload (pre ++ [192 + payload.length]) post f'
            hel (by omega) (by omega)
          have hb2 : (pre ++ [192 + payload.length]) ++ payload ++ post =
              pre ++ ((192 + payload.length) :: payload) ++ post := by simp
          have hl2 : (pre ++ [192 + payload.length]).length = pre.length + 1 := by simp
          rw [hb2, hl2] at hds
          have hidx := getElem?_mid_head pre post payload (192 + payload.length)
          have hclp := clp_eval_short_list hidx (by omega) (by omega)
          refine ⟨.list ds (int_to_big_endian (192 + payload.length) ++ joinSlices ds), ?_,
            by rw [bare, hbars]⟩
          rw [consume_item_fuel, hclp]
          dsimp only
          rw [consume_payload_fuel]
          have harl : 192 + payload.length - 192 = payload.length := by omega
          rw [harl, hds]
          dsimp only
          simp only [Except.ok.injEq, Prod.mk.injEq]
          exact ⟨by trivial, by omega⟩
        · simp only [List.cons_append, List.length_cons, List.length_append] at hlen hf ⊢
          obtain ⟨f', rfl⟩ : ∃ f', f = f' + 1 := ⟨f - 1, by omega⟩
          have h247 : 192 + 56 - 1 = 247 := by norm_num
          rw [h247]
          obtain ⟨ds, hds, hbars⟩ := listPart xs payload
            (pre ++ ((247 + (int_to_big_endian payload.length).length) ::
              int_to_big_endian payload.length)) post f' hel (by omega) (by omega)
          have hb2 : (pre ++ ((247 + (int_to_big_endian payload.length).length) ::
              int_to_big_endian payload.length)) ++ payload ++ post =
              pre ++ ((247 + (int_to_big_endian payload.length).length) ::
                (int_to_big_endian payload.length ++ payload)) ++ post := by simp
          have hl2 : (pre ++ ((247 + (int_to_big_endian payload.length).length) ::
              int_to_big_endian payload.length)).length =
              pre.length + 1 + (int_to_big_endian payload.length).length := by
            simp
            omega
          rw [hb2, hl2] at hds
          have hclp := clp_at_long_list_encoding pre post payload payload.length h56 hbig
          refine ⟨.list ds ((247 + (int_to_big_endian payload.length).length) ::
            int_to_big_endian payload.length ++ joinSlices ds), ?_, by rw [bare, hbars]⟩
          rw [consume_item_fuel]
          rw [hclp]
          dsimp only
          rw [consume_payload_fuel]
          rw [hds]
          dsimp only
          simp only [Except.ok.injEq, Prod.mk.injEq]
          exact ⟨by trivial, by omega⟩
    exact ⟨itemPart, listPart⟩

/-! ### Re-encoding a decoded item reproduces its input slice (canonicality) -/

/-- If a long-form length field passed the leading-zero and minimum-length
checks, it is nonempty and has a nonzero head. -/
theorem len_bytes_facts {rlp : List Nat} {a ll : Nat} (hll : 1 ≤ ll)
    (hz : pySlice rlp a (a + 1) ≠ [0])
    (h56 : 56 ≤ big_endian_to_int (pySlice rlp a (a + ll))) :
    (pySlice rlp a (a + ll)).head? ≠ some 0 ∧ pySlice rlp a (a + ll) ≠ [] := by
  have h1 : pySlice rlp a (a + 1) = (rlp.drop a).take 1 := by
    unfold pySlice
    congr 1
    omega
  have h2 : pySlice rlp a (a + ll) = (rlp.drop a).take ll := by
    unfold pySlice
    congr 1
    omega
  rw [h2] at h56 ⊢
  rw [h1] at hz
  cases hd : rlp.drop a with
  | nil =>
    rw [hd] at h56
    simp [big_endian_to_int] at h56
  | cons hh rest =>
    rw [hd] at hz
    obtain ⟨ll', rfl⟩ : ∃ ll', ll = ll' + 1 := ⟨ll - 1, by omega⟩
    simp only [List.take_succ_cons] at hz ⊢
    have hh0 : hh ≠ 0 := by
      intro hcon
      subst hcon
      simp at hz
    exact ⟨by simp [hh0], by simp⟩

set_option maxRecDepth 8000 in
/-- The prefix bytes returned by `consume_length_prefix` are exactly the
input slice from the prefix position to the payload start. -/
theorem clp_prefix_slice {rlp : List Nat} {start : Nat} {p : List Nat} {t : Kind} {l s : Nat}
    (hv : validBytes rlp) (h : consume_length_prefix rlp start = .ok (p, t, l, s)) :
    p = pySlice rlp start s := by
  obtain ⟨b0, hb, hc⟩ := consume_length_prefix_ok_cases h
  have hb256 : b0 < 256 := validBytes_getElem hv hb
  rcases hc with ⟨hb0, hp, ht, hl, hs⟩ | ⟨hge, hlt, hp, ht, hl, hs, hone⟩ |
      ⟨hge, hlt, hz, hp, ht, hl, h56, hs⟩ | ⟨hge, hlt, hp, ht, hl, hs⟩ |
      ⟨hge, hz, hp, ht, hl, h56, hs⟩
  · rw [hp, hs, pySlice_empty rlp start start le_rfl]
  · rw [hp, hs, pySlice_singleton hb, int_to_big_endian_single (by omega) hb256]
  · rw [hp, hs, pySlice_split rlp start (start + 1) (start + 1 + (b0 - 183)) (by omega)
      (by omega), pySlice_singleton hb, int_to_big_endian_single (by omega) hb256]
  · rw [hp, hs, pySlice_singleton hb, int_to_big_endian_single (by omega) hb256]
  · rw [hp, hs, pySlice_split rlp start (start + 1) (start + 1 + (b0 - 247)) (by omega)
      (by omega), pySlice_singleton hb, int_to_big_endian_single (by omega) hb256]

set_option maxRecDepth 8000 in
/-- Re-encoding the byte-string payload read by the decoder reproduces the
prefix and payload bytes: the canonicality checks make the encoding unique. -/
theorem clp_reencode_str {rlp : List Nat} {start : Nat} {p : List Nat} {l s : Nat}
    (hv : validBytes rlp) (h : consume_length_prefix rlp start = .ok (p, .str, l, s))
    (hle : s + l ≤ rlp.length) :
    encode_raw (.leaf (pySlice rlp s (s + l))) = .ok (p ++ pySlice rlp s (s + l)) := by
  obtain ⟨b0, hb, hc⟩ := consume_length_prefix_ok_cases h
  have hb256 : b0 < 256 := validBytes_getElem hv hb
  rcases hc with ⟨hb0, hp, _, hl, hs⟩ | ⟨hge, hlt, hp, _, hl, hs, hone⟩ |
      ⟨hge, hlt, hz, hp, _, hl, h56, hs⟩ | ⟨_, _, _, ht, _, _⟩ | ⟨_, _, _, ht, _, _⟩
  · subst hs
    subst hp
    subst hl
    rw [pySlice_singleton hb]
    rw [encode_raw, if_pos (by simp [hb0])]
    simp
  · subst hs
    subst hp
    subst hl
    have hlen_pl : (pySlice rlp (start + 1) (start + 1 + (b0 - 128))).length = b0 - 128 := by
      have := pySlice_length rlp (start + 1) (start + 1 + (b0 - 128)) (by omega) (by omega)
      omega
    by_cases hl1 : b0 - 128 = 1
    · obtain rfl : b0 = 129 := by omega
      obtain ⟨b1, hb1, hb1ge⟩ := hone rfl
      have harr : start + 1 + (129 - 128) = (start + 1) + 1 := by omega
      rw [harr, pySlice_singleton hb1]
      rw [encode_raw, if_neg (by simp; omega)]
      have hlp : length_prefix ([b1] : List Nat).length 128 = .ok [129] := by
        unfold length_prefix
        norm_num
      rw [hlp]
      rw [int_to_big_endian_single (by omega) hb256]
    · rw [encode_raw, if_neg (by rw [hlen_pl]; intro hcon; exact hl1 hcon.1)]
      rw [hlen_pl]
      have hlp : length_prefix (b0 - 128) 128 = .ok [b0] := by
        unfold length_prefix
        rw [if_pos (by omega)]
        have : 128 + (b0 - 128) = b0 := by omega
        rw [this]
      rw [hlp]
      rw [int_to_big_endian_single (by omega) hb256]
  · subst hs
    subst hp
    subst hl
    have hz' : pySlice rlp (start + 1) ((start + 1) + 1) ≠ [0] := by
      have h21 : (start + 1) + 1 = start + 2 := by omega
      rw [h21]
      exact hz
    obtain ⟨hhead, hnil⟩ := @len_bytes_facts rlp (start + 1) (b0 - 183) (by omega) hz' h56
    have hlbvalid : validBytes (pySlice rlp (start + 1) (start + 1 + (b0 - 183))) :=
      validBytes_slice hv _ _
    have hibelb := int_to_big_endian_of_big_endian_to_int _ hlbvalid hhead
    have hlb_len : (pySlice rlp (start + 1) (start + 1 + (b0 - 183))).length = b0 - 183 := by
      have := pySlice_length rlp (start + 1) (start + 1 + (b0 - 183)) (by omega) (by omega)
      omega
    have hlbig : big_endian_to_int (pySlice rlp (start + 1) (start + 1 + (b0 - 183))) <
        LONG_LENGTH := by
      have h1 := big_endian_to_int_lt _ hlbvalid
      rw [hlb_len] at h1
      calc big_endian_to_int (pySlice rlp (start + 1) (start + 1 + (b0 - 183)))
          < 256 ^ (b0 - 183) := h1
        _ ≤ 256 ^ 8 := Nat.pow_le_pow_right (by norm_num) (by omega)
        _ = LONG_LENGTH := rfl
    have hlen_pl : (pySlice rlp (start + 1 + (b0 - 183))
        (start + 1 + (b0 - 183) + big_endian_to_int
          (pySlice rlp (start + 1) (start + 1 + (b0 - 183))))).length =
        big_endian_to_int (pySlice rlp (start + 1) (start + 1 + (b0 - 183))) := by
      have := pySlice_length rlp (start + 1 + (b0 - 183))
        (start + 1 + (b0 - 183) + big_endian_to_int
          (pySlice rlp (start + 1) (start + 1 + (b0 - 183)))) (by omega) (by omega)
      omega
    rw [encode_raw, if_neg (by rw [hlen_pl]; intro hcon; omega)]
    rw [hlen_pl]
    have hlp : length_prefix
        (big_endian_to_int (pySlice rlp (start + 1) (start + 1 + (b0 - 183)))) 128 =
        .ok ((183 + (b0 - 183)) :: pySlice rlp (start + 1) (start + 1 + (b0 - 183))) := by
      unfold length_prefix
      rw [if_neg (by omega), if_pos hlbig]
      dsimp only
      rw [hibelb, hlb_len]
      rfl
    rw [hlp]
    have harr : 183 + (b0 - 183) = b0 := by omega
    rw [harr, int_to_big_endian_single (by omega) hb256]
    simp
  · exact absurd ht (by simp)
  · exact absurd ht (by simp)

set_option maxRecDepth 8000 in
/-- Re-encoding a decoded list wraps the (already re-encoded) children with
exactly the prefix the decoder consumed. -/
theorem clp_reencode_list {rlp : List Nat} {start : Nat} {p : List Nat} {l s : Nat}
    {ts : List Tree} {js : List Nat}
    (hv : validBytes rlp) (h : consume_length_prefix rlp start = .ok (p, .list, l, s))
    (hle : s + l ≤ rlp.length) (hel : encode_list ts = .ok js) (hjs : js.length = l) :
    encode_raw (.node ts) = .ok (p ++ js) := by
  obtain ⟨b0, hb, hc⟩ := consume_length_prefix_ok_cases h
  have hb256 : b0 < 256 := validBytes_getElem hv hb
  rcases hc with ⟨_, _, ht, _, _⟩ | ⟨_, _, _, ht, _, _, _⟩ | ⟨_, _, _, _, ht, _, _, _⟩ |
      ⟨hge, hlt, hp, _, hl, hs⟩ | ⟨hge, hz, hp, _, hl, h56, hs⟩
  · exact absurd ht (by simp)
  · exact absurd ht (by simp)
  · exact absurd ht (by simp)
  · subst hp
    subst hl
    rw [encode_raw, hel]
    dsimp only
    have hlp : length_prefix js.length 192 = .ok [b0] := by
      unfold length_prefix
      rw [hjs, if_pos (by omega)]
      have : 192 + (b0 - 192) = b0 := by omega
      rw [this]
    rw [hlp]
    rw [int_to_big_endian_single (by omega) hb256]
  · subst hs
    subst hp
    subst hl
    have hz' : pySlice rlp (start + 1) ((start + 1) + 1) ≠ [0] := by
      have h21 : (start + 1) + 1 = start + 2 := by omega
      rw [h21]
      exact hz
    obtain ⟨hhead, hnil⟩ := @len_bytes_facts rlp (start + 1) (b0 - 247) (by omega) hz' h56
    have hlbvalid : validBytes (pySlice rlp (start + 1) (start + 1 + (b0 - 247))) :=
      validBytes_slice hv _ _
    have hibelb := int_to_big_endian_of_big_endian_to_int _ hlbvalid hhead
    have hlb_len : (pySlice rlp (start + 1) (start + 1 + (b0 - 247))).length = b0 - 247 := by
      have := pySlice_length rlp (start + 1) (start + 1 + (b0 - 247)) (by omega) (by omega)
      omega
    have hlbig : big_endian_to_int (pySlice rlp (start + 1) (start + 1 + (b0 - 247))) <
        LONG_LENGTH := by
      have h1 := big_endian_to_int_lt _ hlbvalid
      rw [hlb_len] at h1
      calc big_endian_to_int (pySlice rlp (start + 1) (start + 1 + (b0 - 247)))
          < 256 ^ (b0 - 247) := h1
        _ ≤ 256 ^ 8 := Nat.pow_le_pow_right (by norm_num) (by omega)
        _ = LONG_LENGTH := rfl
    rw [encode_raw, hel]
    dsimp only
    have hlp : length_prefix js.length 192 =
        .ok ((192 + 56 - 1 + (pySlice rlp (start + 1) (start + 1 + (b0 - 247))).length) ::
          pySlice rlp (start + 1) (start + 1 + (b0 - 247))) := by
      unfold length_prefix
      rw [hjs, if_neg (by omega), if_pos hlbig]
      dsimp only
      rw [hibelb]
      rfl
    rw [hlp]
    rw [hlb_len]
    have harr : 192 + 56 - 1 + (b0 - 247) = b0 := by omega
    rw [harr, int_to_big_endian_single (by omega) hb256]
    simp

theorem joinSlices_nil : joinSlices [] = [] := rfl

theorem joinSlices_cons (d : DItem) (ds : List DItem) :
    joinSlices (d :: ds) = DItem.slice d ++ joinSlices ds := by
  simp [joinSlices]

/-- Inverse direction: any successfully decoded item re-encodes to exactly
the input slice it was decoded from (decoding only accepts canonical
encodings).  By induction on the decoder's fuel. -/
theorem decode_encode_aux :
    ∀ f : Nat,
      (∀ rlp start d e, validBytes rlp → consume_item_fuel f rlp start = .ok (d, e) →
        e ≤ rlp.length →
        start ≤ e ∧ DItem.slice d = pySlice rlp start e ∧
          encode_raw (bare d) = .ok (DItem.slice d)) ∧
      (∀ rlp pos endPos ds fin, validBytes rlp →
        consume_list_fuel f rlp pos endPos = .ok (ds, fin) → endPos ≤ rlp.length →
        pos ≤ fin ∧ joinSlices ds = pySlice rlp pos fin ∧
          encode_list (bareList ds) = .ok (joinSlices ds)) := by
  intro f
  induction f with
  | zero =>
    constructor
    · intro rlp start d e hv h hle
      rw [consume_item_fuel] at h
      cases hc : consume_length_prefix rlp start with
      | error er =>
        rw [hc] at h
        exact absurd h (by simp)
      | ok v =>
        obtain ⟨p, t, l, s⟩ := v
        rw [hc] at h
        dsimp only at h
        rw [consume_payload_fuel] at h
        exact absurd h (by simp)
    · intro rlp pos endPos ds fin hv h hle
      rw [consume_list_fuel] at h
      exact absurd h (by simp)
  | succ f ihf =>
    obtain ⟨ihItem, ihList⟩ := ihf
    constructor
    · intro rlp start d e hv h hle
      rw [consume_item_fuel] at h
      cases hc : consume_length_prefix rlp start with
      | error er =>
        rw [hc] at h
        exact absurd h (by simp)
      | ok v =>
        obtain ⟨p, t, l, s⟩ := v
        rw [hc] at h
        dsimp only at h
        obtain ⟨hsl, hss, hsp, hlst⟩ := consume_length_prefix_ok_facts hc
        cases t with
        | str =>
          rw [consume_payload_fuel] at h
          simp only [Except.ok.injEq, Prod.mk.injEq] at h
          obtain ⟨hd, heq⟩ := h
          subst heq
          subst hd
          refine ⟨by omega, ?_, ?_⟩
          · show p ++ pySlice rlp s (s + l) = pySlice rlp start (s + l)
            rw [clp_prefix_slice hv hc]
            rw [← pySlice_split rlp start s (s + l) hss (by omega)]
          · show encode_raw (.leaf (pySlice rlp s (s + l))) =
              .ok (p ++ pySlice rlp s (s + l))
            exact clp_reencode_str hv hc hle
        | list =>
          rw [consume_payload_fuel] at h
          cases hq : consume_list_fuel f rlp s (s + l) with
          | error er =>
            rw [hq] at h
            exact absurd h (by simp)
          | ok u =>
            obtain ⟨items, fin⟩ := u
            have hfin : fin = s + l :=
              consume_list_fuel_ok_end f rlp s (s + l) items fin hq
            subst hfin
            rw [hq] at h
            dsimp only at h
            simp only [Except.ok.injEq, Prod.mk.injEq] at h
            obtain ⟨hd, heq⟩ := h
            subst heq
            subst hd
            obtain ⟨hpf, hjoin, hencl⟩ := ihList rlp s (s + l) items (s + l) hv hq (by omega)
            have hjs_len : (joinSlices items).length = l := by
              rw [hjoin]
              have := pySlice_length rlp s (s + l) (by omega) (by omega)
              omega
            refine ⟨by omega, ?_, ?_⟩
            · show p ++ joinSlices items = pySlice rlp start (s + l)
              rw [hjoin, clp_prefix_slice hv hc]
              rw [← pySlice_split rlp start s (s + l) hss (by omega)]
            · show encode_raw (.node (bareList items)) = .ok (p ++ joinSlices items)
              exact clp_reencode_list hv hc hle hencl hjs_len
    · intro rlp pos endPos ds fin hv h hle
      rw [consume_list_fuel] at h
      split at h
      · cases hc : consume_length_prefix rlp pos with
        | error er =>
          rw [hc] at h
          exact absurd h (by simp)
        | ok v =>
          obtain ⟨p, t, l, s⟩ := v
          rw [hc] at h
          dsimp only at h
          cases hp : consume_payload_fuel f rlp p s t l with
          | error er =>
            rw [hp] at h
            exact absurd h (by simp)
          | ok w =>
            obtain ⟨item, pos'⟩ := w
            rw [hp] at h
            dsimp only at h
            cases hq : consume_list_fuel f rlp pos' endPos with
            | error er =>
              rw [hq] at h
              exact absurd h (by simp)
            | ok u =>
              obtain ⟨items', fin'⟩ := u
              rw [hq] at h
              dsimp only at h
              simp only [Except.ok.injEq, Prod.mk.injEq] at h
              obtain ⟨hds, hfin⟩ := h
              subst hds
              subst hfin
              have hfin' : fin' = endPos :=
                consume_list_fuel_ok_end f rlp pos' endPos items' fin' hq
              obtain ⟨hp1, hjoin1, hencl1⟩ := ihList rlp pos' endPos items' fin' hv hq hle
              have hitem : consume_item_fuel f rlp pos = .ok (item, pos') := by
                rw [consume_item_fuel, hc]
                exact hp
              obtain ⟨hppos, hsl1, henc1⟩ := ihItem rlp pos item pos' hv hitem (by omega)
              refine ⟨by omega, ?_, ?_⟩
              · rw [joinSlices_cons, hsl1, hjoin1,
                  ← pySlice_split rlp pos pos' fin' hppos hp1]
              · rw [bareList, encode_list, henc1, hencl1]
                dsimp only
                rw [joinSlices_cons]
      · split at h
        · exact absurd h (by simp)
        · simp only [Except.ok.injEq, Prod.mk.injEq] at h
          obtain ⟨hds, hfin⟩ := h
          subst hds
          subst hfin
          have hpe : pos = endPos := by omega
          subst hpe
          refine ⟨le_rfl, ?_, ?_⟩
          · rw [joinSlices_nil, pySlice_empty rlp pos pos le_rfl]
          · rfl

/-! ### The type-directed layer: values, sedes selection, the encode facade -/

/-- Modelled from the spec: a `Serializable` record instance
(`rlp/sedes/serializable.py` is not under `src/`).  Its class is a sedes
whose `serialize` yields the Tree of the record's fields, carried here
abstractly as `tree`; `cached` is the `_cached_rlp` slot, with `[]` playing
the role of the empty/`None` cache (both are falsy in Python). -/
structure SRecord where
  tree : Tree
  cached : List Nat

/-- A Python value as the encode facade and `infer_sedes` distinguish them:
booleans, ints (`Int`: Python ints are signed and unbounded), byte strings,
text strings (carried as their UTF-8 bytes), sequences, and record
instances. -/
inductive PyVal where
  | vbool (b : Bool)
  | vint (n : Int)
  | vbytes (bs : List Nat)
  | vstr (utf8 : List Nat)
  | vlist (xs : List PyVal)
  | vrecord (r : SRecord)

/-- The codec selected by `infer_sedes`. -/
inductive SedesChoice where
  | ownClass
  | big_endian_int
  | binary
  | listOf (ss : List SedesChoice)
  | boolean
  | text

/-- Errors of the encode facade: `serializationError` is a sedes refusing a
value; `noSedes` is the `TypeError('Did not find sedes handling type ...')`
of `infer_sedes`; `cannotEncode` and `itemTooBig` are the `EncodingError`s
of `encode_raw`. -/
inductive FEncErr where
  | serializationError
  | noSedes
  | cannotEncode
  | itemTooBig
deriving DecidableEq

/-- Modelled from the spec: `is_sedes(obj.__class__)` (`rlp/sedes/lists.py`,
not under `src/`) — among the value shapes here, exactly the record
(Serializable) classes are sedes. -/
def is_sedes_of_class : PyVal → Bool
  | .vrecord _ => true
  | _ => false

/-- `isinstance(obj, bool)`. -/
def isinstance_bool : PyVal → Bool
  | .vbool _ => true
  | _ => false

/-- `isinstance(obj, int)`: Python booleans are ints, so they satisfy this
check and must be excluded explicitly. -/
def isinstance_int : PyVal → Bool
  | .vbool _ => true
  | .vint _ => true
  | _ => false

/-- `obj >= 0` on the int shapes (`True = 1` and `False = 0` are both
nonnegative). -/
def int_nonneg : PyVal → Bool
  | .vbool _ => true
  | .vint n => decide (0 ≤ n)
  | _ => false

/-- Modelled from the spec: `BinaryClass.is_valid_type`
(`rlp/sedes/binary.py`, not under `src/`) accepts byte strings. -/
def binary_is_valid_type : PyVal → Bool
  | .vbytes _ => true
  | _ => false

/-- `isinstance(obj, str)`. -/
def isinstance_str : PyVal → Bool
  | .vstr _ => true
  | _ => false

/-- `isinstance(obj, collections.Sequence)`: byte strings, text strings and
lists are Python sequences; numbers and booleans are not. -/
def isinstance_sequence : PyVal → Bool
  | .vbytes _ => true
  | .vstr _ => true
  | .vlist _ => true
  | _ => false

mutual
/-- Mirrors `infer_sedes(obj)` in `src/rlp/codec.py`: ordered dynamic type
checks, first match wins; the fall-through raises `TypeError('Did not find
sedes handling type ...')`.  The list shape is split out at the top only so
that the recursion into the elements is structural: both arms carry the
same cascade in the same order, and of the values here only lists are
non-text sequences (byte and text strings are caught by earlier rules). -/
def infer_sedes : PyVal → Except FEncErr SedesChoice
  | .vlist xs =>
    if is_sedes_of_class (.vlist xs) then .ok .ownClass
    else if !isinstance_bool (.vlist xs) && isinstance_int (.vlist xs) &&
        int_nonneg (.vlist xs) then
      .ok .big_endian_int
    else if binary_is_valid_type (.vlist xs) then .ok .binary
    else if !isinstance_str (.vlist xs) && isinstance_sequence (.vlist xs) then
      match infer_sedes_list xs with
      | .ok ss => .ok (.listOf ss)
      | .error e => .error e
    else if isinstance_bool (.vlist xs) then .ok .boolean
    else if isinstance_str (.vlist xs) then .ok .text
    else .error .noSedes
  | obj =>
    if is_sedes_of_class obj then .ok .ownClass
    else if !isinstance_bool obj && isinstance_int obj && int_nonneg obj then
      .ok .big_endian_int
    else if binary_is_valid_type obj then .ok .binary
    else if !isinstance_str obj && isinstance_sequence obj then .error .noSedes
    else if isinstance_bool obj then .ok .boolean
    else if isinstance_str obj then .ok .text
    else .error .noSedes

/-- `List(map(infer_sedes, obj))`: infer each element, errors propagate. -/
def infer_sedes_list : List PyVal → Except FEncErr (List SedesChoice)
  | [] => .ok []
  | x :: xs =>
    match infer_sedes x, infer_sedes_list xs with
    | .ok s, .ok ss => .ok (s :: ss)
    | .error e, _ => .error e
    | .ok _, .error e => .error e
end

mutual
/-- Modelled from the spec (§4.D, the sedes built-ins are not under `src/`):
the serialize operation of each codec.  `big_endian_int` yields the minimal
big-endian bytes (empty for zero) and refuses negatives; `binary` is the
identity on byte strings; `boolean` maps true to `0x01` and false to the
empty string; `text` yields the UTF-8 bytes; `List` serializes
componentwise, refusing arity mismatch; a record class serializes a record
instance to its field Tree.  A sedes refusing a value is
`SerializationError`. -/
def serializeWith : SedesChoice → PyVal → Except FEncErr Tree
  | .ownClass, .vrecord r => .ok r.tree
  | .big_endian_int, .vint n =>
      if 0 ≤ n then .ok (.leaf (int_to_big_endian n.toNat))
      else .error .serializationError
  | .big_endian_int, .vbool b => .ok (.leaf (int_to_big_endian (if b then 1 else 0)))
  | .binary, .vbytes bs => .ok (.leaf bs)
  | .boolean, .vbool b => .ok (.leaf (if b then [1] else []))
  | .text, .vstr u => .ok (.leaf u)
  | .listOf ss, .vlist xs =>
      match serializeList ss xs with
      | .ok ts => .ok (.node ts)
      | .error e => .error e
  | _, _ => .error .serializationError

/-- Componentwise serialization of a fixed-arity `List` sedes. -/
def serializeList : List SedesChoice → List PyVal → Except FEncErr (List Tree)
  | [], [] => .ok []
  | s :: ss, x :: xs =>
      match serializeWith s x, serializeList ss xs with
      | .ok t, .ok ts => .ok (t :: ts)
      | .error e, _ => .error e
      | .ok _, .error e => .error e
  | _, _ => .error .serializationError
end

mutual
/-- Mirrors `encode_raw` applied directly to a Python object — the
`infer_serializer=False, sedes=None` path of `encode`: byte strings are
`Atomic`, non-text sequences recurse, and anything else (text, numbers,
booleans, records — the value must already be a Tree, spec §4.G) raises
`EncodingError('Cannot encode object of type ...')`. -/
def encode_raw_obj : PyVal → Except FEncErr (List Nat)
  | .vbytes bs =>
      if bs.length = 1 ∧ bs.headD 0 < 128 then .ok bs
      else
        match length_prefix bs.length 128 with
        | .ok pre => .ok (pre ++ bs)
        | .error _ => .error .itemTooBig
  | .vlist xs =>
      match encode_raw_obj_list xs with
      | .error e => .error e
      | .ok payload =>
        match length_prefix payload.length 192 with
        | .ok pre => .ok (pre ++ payload)
        | .error _ => .error .itemTooBig
  | _ => .error .cannotEncode

def encode_raw_obj_list : List PyVal → Except FEncErr (List Nat)
  | [] => .ok []
  | x :: xs =>
      match encode_raw_obj x, encode_raw_obj_list xs with
      | .ok e, .ok rest => .ok (e ++ rest)
      | .error e, _ => .error e
      | .ok _, .error e => .error e
end

/-- Injects `encode_raw`'s errors into the facade error type (the
`ValueError` cannot escape `encode_raw`, which converts it). -/
def liftEnc : Except EncErr (List Nat) → Except FEncErr (List Nat)
  | .ok v => .ok v
  | .error .valueError => .error .itemTooBig
  | .error .itemTooBig => .error .itemTooBig
  | .error .cannotEncode => .error .cannotEncode

/-- A sedes as the facade consumes it: its `serialize` method. -/
def Sedes := PyVal → Except FEncErr Tree

def isRecord : PyVal → Bool
  | .vrecord _ => true
  | _ => false

/-- The `_cached_rlp` slot of a value (empty on non-records). -/
def cacheOf : PyVal → List Nat
  | .vrecord r => r.cached
  | _ => []

/-- `obj._cached_rlp = bs` (the identity on non-records). -/
def setCache : PyVal → List Nat → PyVal
  | .vrecord r, bs => .vrecord (SRecord.mk r.tree bs)
  | v, _ => v

/-- The body of `encode` past the cache check: serialize with the supplied
sedes, else with the inferred one, else use the object as a raw tree; then
raw-encode and, if `really_cache`, store the result in `_cached_rlp`. -/
def encode_main (obj : PyVal) (sedes : Option Sedes) (infer_serializer : Bool)
    (really_cache : Bool) : Except FEncErr (List Nat × PyVal) :=
  match (match sedes with
         | some s =>
            match s obj with
            | .ok item => liftEnc (encode_raw item)
            | .error e => .error e
         | none =>
            if infer_serializer then
              match infer_sedes obj with
              | .ok sc =>
                match serializeWith sc obj with
                | .ok item => liftEnc (encode_raw item)
                | .error e => .error e
              | .error e => .error e
            else encode_raw_obj obj) with
  | .error e => .error e
  | .ok result =>
    if really_cache then .ok (result, setCache obj result)
    else .ok (result, obj)

/-- Mirrors `encode(obj, sedes, infer_serializer, cache)` in
`src/rlp/codec.py`.  The result pairs the returned bytes with the value as
it stands after the call, so the `_cached_rlp` write is observable: on a
record with no explicit sedes and a non-empty cache the cached bytes are
returned unchanged; otherwise `really_cache := cache and sedes is None`
(and `False` for non-records) decides whether the result is stored. -/
def encode (obj : PyVal) (sedes : Option Sedes) (infer_serializer : Bool) (cache : Bool) :
    Except FEncErr (List Nat × PyVal) :=
  match obj with
  | .vrecord r =>
    if sedes.isNone ∧ r.cached ≠ [] then
      .ok (r.cached, obj)
    else
      encode_main obj sedes infer_serializer (cache && sedes.isNone)
  | _ => encode_main obj sedes infer_serializer false

/-- The value returned by `encode_main` alongside the bytes: the original
object, with the cache written exactly when `really_cache` is set. -/
theorem encode_main_ok_snd (obj : PyVal) (sedes : Option Sedes) (i rc : Bool)
    (res : List Nat) (o' : PyVal) (h : encode_main obj sedes i rc = .ok (res, o')) :
    o' = if rc then setCache obj res else obj := by
  unfold encode_main at h
  split at h
  · exact absurd h (by simp)
  · split at h
    next hrc =>
      simp only [Except.ok.injEq, Prod.mk.injEq] at h
      obtain ⟨h1, h2⟩ := h
      rw [if_pos hrc, ← h2, h1]
    next hrc =>
      simp only [Except.ok.injEq, Prod.mk.injEq] at h
      obtain ⟨h1, h2⟩ := h
      rw [if_neg hrc]
      exact h2.symm

/-- The bytes computed by `encode_main` under an explicit sedes depend on
the object only through the sedes call, not on `really_cache` or on the
`_cached_rlp` slot. -/
theorem encode_main_fst_eq (obj obj' : PyVal) (s : Sedes) (i rc rc' : Bool)
    (hs : s obj' = s obj) :
    (encode_main obj' (some s) i rc').map Prod.fst =
      (encode_main obj (some s) i rc).map Prod.fst := by
  unfold encode_main
  dsimp only
  rw [hs]
  cases hso : s obj with
  | error e => rfl
  | ok item =>
    dsimp only
    cases he : liftEnc (encode_raw item) with
    | error e => rfl
    | ok result =>
      dsimp only
      cases rc' <;> cases rc <;> simp [Except.map]

/-- `encode` on a record: the cache check, then `encode_main` with
`really_cache = cache and sedes is None`. -/
theorem encode_vrecord (r : SRecord) (sedes : Option Sedes) (i c : Bool) :
    encode (.vrecord r) sedes i c =
      if sedes.isNone = true ∧ r.cached ≠ [] then .ok (r.cached, .vrecord r)
      else encode_main (.vrecord r) sedes i (c && sedes.isNone) := rfl

/-! ### The claims -/

/-- C1: for every Tree `t` built from byte-string leaves and finite nested
sequences whose every payload length is below 2^64 — exactly the trees on
which `encode_raw` succeeds — decoding the raw encoding of `t` recovers `t`:
`consume_item (encode_raw t) 0` succeeds and returns a decorated tree whose
bare tree (first components, slices stripped) equals `t`, with end offset
equal to the length of the encoding. -/
theorem C1_roundtrip_encode_decode (t : Tree) (enc : List Nat)
    (h : encode_raw t = .ok enc) :
    ∃ d, consume_item enc 0 = .ok (d, enc.length) ∧ bare d = t := by
  obtain ⟨d, hd, hb⟩ := (encode_decode_aux enc.length).1 t enc [] [] (2 * enc.length + 4)
    h le_rfl (by omega)
  refine ⟨d, ?_, hb⟩
  have hbuf : ([] : List Nat) ++ enc ++ [] = enc := by simp
  rw [hbuf] at hd
  show consume_item_fuel (2 * enc.length + 4) enc 0 = .ok (d, enc.length)
  simpa using hd

/-- C1 witness: the tree `[b"aa", b""]` encodes to `C4 82 61 61 80` and
decodes back to itself. -/
theorem C1_roundtrip_witness :
    ∃ d, consume_item [0xC4, 0x82, 0x61, 0x61, 0x80] 0 = .ok (d, 5) ∧
      bare d = Tree.node [.leaf [0x61, 0x61], .leaf []] := by
  have h := C1_roundtrip_encode_decode (Tree.node [.leaf [0x61, 0x61], .leaf []])
    [0xC4, 0x82, 0x61, 0x61, 0x80] (by rfl)
  simpa using h

/-- C2: for every byte sequence `b` that decodes successfully in strict mode
(`consume_item b 0` succeeds with end offset equal to the length of `b`),
re-encoding the decoded bare tree with `encode_raw` yields exactly `b`. -/
theorem C2_decode_then_encode (b : List Nat) (d : DItem)
    (hv : validBytes b) (h : consume_item b 0 = .ok (d, b.length)) :
    encode_raw (bare d) = .ok b := by
  have h' : consume_item_fuel (2 * b.length + 4) b 0 = .ok (d, b.length) := h
  obtain ⟨-, hslice, henc⟩ :=
    (decode_encode_aux (2 * b.length + 4)).1 b 0 d b.length hv h' le_rfl
  rw [hslice, pySlice_all] at henc
  exact henc

/-- C2 witness: the encoding of `["cat", "dog"]` decodes strictly and
re-encodes to itself. -/
theorem C2_decode_then_encode_witness :
    encode_raw (bare (DItem.list
      [.str [0x63, 0x61, 0x74] [0x83, 0x63, 0x61, 0x74],
       .str [0x64, 0x6F, 0x67] [0x83, 0x64, 0x6F, 0x67]]
      [0xC8, 0x83, 0x63, 0x61, 0x74, 0x83, 0x64, 0x6F, 0x67])) =
      .ok [0xC8, 0x83, 0x63, 0x61, 0x74, 0x83, 0x64, 0x6F, 0x67] :=
  C2_decode_then_encode [0xC8, 0x83, 0x63, 0x61, 0x74, 0x83, 0x64, 0x6F, 0x67] _
    (by unfold validBytes; decide) (by rfl)

/-- C3: reading a prefix enforces all four canonicality checks, at every
input and position: a `0x81` short-string prefix whose payload byte is
below `0x80` fails; a long-form string or list whose first length byte is
`0x00` fails; a long-form string or list whose decoded payload length is
below 56 fails; none of these inputs is repaired into a value. -/
theorem C3_canonicality_checks (rlp : List Nat) (start b0 : Nat)
    (hb : rlp[start]? = some b0) :
    (b0 = 0x81 → ∀ b1, rlp[start + 1]? = some b1 → b1 < 0x80 →
      consume_length_prefix rlp start = .error .singleByteNonCanonical) ∧
    (0xB8 ≤ b0 → b0 < 0xC0 → rlp[start + 1]? = some 0 →
      consume_length_prefix rlp start = .error .lengthStartsWithZero) ∧
    (0xF8 ≤ b0 → rlp[start + 1]? = some 0 →
      consume_length_prefix rlp start = .error .lengthStartsWithZero) ∧
    (0xB8 ≤ b0 → b0 < 0xC0 → pySlice rlp (start + 1) (start + 2) ≠ [0] →
      big_endian_to_int (pySlice rlp (start + 1) (start + 1 + (b0 - 0xB7))) < 56 →
      consume_length_prefix rlp start = .error .longStringForShort) ∧
    (0xF8 ≤ b0 → pySlice rlp (start + 1) (start + 2) ≠ [0] →
      big_endian_to_int (pySlice rlp (start + 1) (start + 1 + (b0 - 0xF7))) < 56 →
      consume_length_prefix rlp start = .error .longListForShort) := by
  refine ⟨?_, ?_, ?_, ?_, ?_⟩
  · intro h129 b1 hb1 hlow
    subst h129
    unfold consume_length_prefix
    rw [hb]
    dsimp only
    rw [if_neg (by norm_num), if_pos (by simp only [SHORT_STRING]; norm_num),
      if_pos (by norm_num), hb1]
    dsimp only
    rw [if_pos hlow]
  · intro hge hlt hz
    unfold consume_length_prefix
    rw [hb]
    dsimp only
    rw [if_neg (by omega), if_neg (by simp only [SHORT_STRING]; omega), if_pos (by omega)]
    rw [if_pos ?_]
    have h2 : start + 2 = (start + 1) + 1 := by omega
    rw [h2, pySlice_singleton hz]
  · intro hge hz
    unfold consume_length_prefix
    rw [hb]
    dsimp only
    rw [if_neg (by omega), if_neg (by simp only [SHORT_STRING]; omega), if_neg (by omega),
      if_neg (by omega)]
    rw [if_pos ?_]
    have h2 : start + 2 = (start + 1) + 1 := by omega
    rw [h2, pySlice_singleton hz]
  · intro hge hlt hz hsmall
    unfold consume_length_prefix
    rw [hb]
    dsimp only
    rw [if_neg (by omega), if_neg (by simp only [SHORT_STRING]; omega), if_pos (by omega)]
    rw [if_neg hz, if_pos hsmall]
  · intro hge hz hsmall
    unfold consume_length_prefix
    rw [hb]
    dsimp only
    rw [if_neg (by omega), if_neg (by simp only [SHORT_STRING]; omega), if_neg (by omega),
      if_neg (by omega)]
    have harith : b0 - 192 - 56 + 1 = b0 - 0xF7 := by omega
    rw [harith, if_neg hz, if_pos hsmall]

/-- C3 witness: the negative vectors `81 7F`, `B9 00 40`, `F9 00 40`,
`B8 37` and `F8 01` are all rejected with the expected errors. -/
theorem C3_canonicality_witness :
    consume_length_prefix [0x81, 0x7F] 0 = .error .singleByteNonCanonical ∧
    consume_length_prefix [0xB9, 0x00, 0x40] 0 = .error .lengthStartsWithZero ∧
    consume_length_prefix [0xF9, 0x00, 0x40] 0 = .error .lengthStartsWithZero ∧
    consume_length_prefix [0xB8, 0x37] 0 = .error .longStringForShort ∧
    consume_length_prefix [0xF8, 0x01] 0 = .error .longListForShort :=
  ⟨(C3_canonicality_checks [0x81, 0x7F] 0 0x81 rfl).1 rfl 0x7F rfl (by norm_num),
   (C3_canonicality_checks [0xB9, 0x00, 0x40] 0 0xB9 rfl).2.1 (by norm_num) (by norm_num) rfl,
   (C3_canonicality_checks [0xF9, 0x00, 0x40] 0 0xF9 rfl).2.2.1 (by norm_num) rfl,
   (C3_canonicality_checks [0xB8, 0x37] 0 0xB8 rfl).2.2.2.1 (by norm_num) (by norm_num)
     (by decide) (by decide),
   (C3_canonicality_checks [0xF8, 0x01] 0 0xF8 rfl).2.2.2.2 (by norm_num)
     (by decide) (by decide)⟩

/-- C4 counterexample: the input `83 61 62` declares a 3-byte payload but
provides only 2 bytes, so decoding needs bytes past the end of the input;
yet non-strict decode succeeds with a truncated leaf, and strict decode
fails with the superfluous-bytes error, not `InputTruncated` — refuting the
claim that every such input fails with `InputTruncated` in both modes. -/
theorem C4_counterexample :
    decode [0x83, 0x61, 0x62] false = .ok (.leaf [0x61, 0x62]) ∧
    decode [0x83, 0x61, 0x62] true = .error .superfluousBytes :=
  ⟨rfl, rfl⟩

/-- C4 (amended): only a read past the end of the input by direct indexing
— the prefix byte at the current position, or the payload byte inspected by
the `0x81` canonicality check — raises `IndexError`, which `decode` reports
as `InputTruncated` (`RLP string too short`) in both strict and non-strict
mode; a declared payload extending past the buffer is sliced without
raising. -/
theorem C4_amended_truncation (rlp : List Nat) (strict : Bool) (start : Nat) :
    (rlp.length ≤ start → consume_item rlp start = .error .indexError) ∧
    (consume_item rlp 0 = .error .indexError →
      decode rlp strict = .error .rlpStringTooShort) := by
  constructor
  · intro hge
    show consume_item_fuel (2 * rlp.length + 4) rlp start = .error .indexError
    rw [consume_item_fuel]
    unfold consume_length_prefix
    rw [List.getElem?_eq_none hge]
  · intro h
    unfold decode
    rw [h]

/-- C4 witness: the lone byte `81` promises a payload byte that is missing;
`consume_item` raises `IndexError` and `decode` reports `RLP string too
short`, and reading at an out-of-range position also raises `IndexError`. -/
theorem C4_amended_witness :
    consume_item [0x81] 1 = .error .indexError ∧
    decode [0x81] true = .error .rlpStringTooShort :=
  ⟨(C4_amended_truncation [0x81] true 1).1 (by norm_num),
   (C4_amended_truncation [0x81] true 0).2 (by rfl)⟩

/-- C5: `length_prefix length o` with `o` in `{0x80, 0xC0}` returns the
single byte `o + length` when `length < 56`; when `56 ≤ length < 2^64` it
returns `(o + 55 + len L) :: L` where `L` is `length` in big-endian with no
leading zero (nonempty, and reading it back as big-endian gives `length`);
and for `length ≥ 2^64` it fails (the `ValueError` that `encode_raw` turns
into `EncodingError('Item too big to encode')`). -/
theorem C5_length_prefix_spec (length offset : Nat)
    (ho : offset = 0x80 ∨ offset = 0xC0) :
    (length < 56 → length_prefix length offset = .ok [offset + length]) ∧
    (56 ≤ length → length < 2 ^ 64 →
      length_prefix length offset =
        .ok ((offset + 55 + (int_to_big_endian length).length) :: int_to_big_endian length) ∧
      int_to_big_endian length ≠ [] ∧
      (int_to_big_endian length).head? ≠ some 0 ∧
      big_endian_to_int (int_to_big_endian length) = length) ∧
    (2 ^ 64 ≤ length → length_prefix length offset = .error .valueError) := by
  have hpow : (256 : Nat) ^ 8 = 2 ^ 64 := by norm_num
  refine ⟨?_, ?_, ?_⟩
  · intro h1
    unfold length_prefix
    rw [if_pos h1]
  · intro h1 h2
    refine ⟨?_, int_to_big_endian_ne_nil (by omega),
      int_to_big_endian_head_ne_zero length (by omega),
      big_endian_to_int_of_int_to_big_endian length⟩
    unfold length_prefix
    rw [if_neg (by omega), if_pos (by simp only [LONG_LENGTH]; omega)]
    dsimp only
    have h55 : offset + 56 - 1 = offset + 55 := by omega
    rw [h55]
    rfl
  · intro h1
    unfold length_prefix
    rw [if_neg (by omega), if_neg (by simp only [LONG_LENGTH]; omega)]

/-- C5 witness: `length_prefix` on the three regimes, at lengths 3, 56 and
2^64, for both offsets. -/
theorem C5_length_prefix_witness :
    length_prefix 3 0x80 = .ok [0x83] ∧
    length_prefix 56 0xC0 = .ok [0xF8, 56] ∧
    length_prefix (2 ^ 64) 0x80 = .error .valueError := by
  refine ⟨(C5_length_prefix_spec 3 0x80 (Or.inl rfl)).1 (by norm_num), ?_,
    (C5_length_prefix_spec (2 ^ 64) 0x80 (Or.inl rfl)).2.2 (by norm_num)⟩
  have h := ((C5_length_prefix_spec 56 0xC0 (Or.inr rfl)).2.1 (by norm_num) (by norm_num)).1
  rw [show int_to_big_endian 56 = [56] from rfl] at h
  simpa using h

/-- C6: every leaf of length 1 whose single byte value is below 128 encodes
to that one byte unchanged, with no prefix. -/
theorem C6_single_low_byte (b : Nat) (hb : b < 128) :
    encode_raw (.leaf [b]) = .ok [b] := by
  rw [encode_raw, if_pos (by simpa using hb)]

/-- C6 witness: the byte strings `00` and `7F` each encode to themselves. -/
theorem C6_single_low_byte_witness :
    encode_raw (.leaf [0x00]) = .ok [0x00] ∧ encode_raw (.leaf [0x7F]) = .ok [0x7F] :=
  ⟨C6_single_low_byte 0x00 (by norm_num), C6_single_low_byte 0x7F (by norm_num)⟩

/-- C7: `infer_sedes` selects a codec by the seven ordered rules with first
match winning: sedes-typed class, unsigned integer excluding booleans
(`big_endian_int`), byte string (`binary`), non-text sequence (recursive
`List`), boolean, text, else failure with `NoSedes`; in particular every
boolean takes the boolean codec and never `big_endian_int`. -/
theorem C7_infer_sedes_dispatch :
    (∀ r, infer_sedes (.vrecord r) = .ok .ownClass) ∧
    (∀ n : Int, 0 ≤ n → infer_sedes (.vint n) = .ok .big_endian_int) ∧
    (∀ bs, infer_sedes (.vbytes bs) = .ok .binary) ∧
    (∀ xs ss, infer_sedes_list xs = .ok ss →
      infer_sedes (.vlist xs) = .ok (.listOf ss)) ∧
    (∀ b, infer_sedes (.vbool b) = .ok .boolean ∧
      infer_sedes (.vbool b) ≠ .ok .big_endian_int) ∧
    (∀ u, infer_sedes (.vstr u) = .ok .text) ∧
    (∀ n : Int, n < 0 → infer_sedes (.vint n) = .error .noSedes) := by
  refine ⟨fun r => rfl, ?_, fun bs => rfl, ?_, ?_, fun u => rfl, ?_⟩
  · intro n hn
    unfold infer_sedes
    simp [is_sedes_of_class, isinstance_bool, isinstance_int, int_nonneg, hn]
  · intro xs ss h
    show (match infer_sedes_list xs with
          | .ok ss => .ok (.listOf ss)
          | .error e => .error e) = Except.ok (SedesChoice.listOf ss)
    rw [h]
  · intro b
    refine ⟨rfl, ?_⟩
    intro hcon
    rw [show infer_sedes (.vbool b) = .ok .boolean from rfl] at hcon
    exact SedesChoice.noConfusion (Except.ok.inj hcon)
  · intro n hn
    unfold infer_sedes
    simp only [is_sedes_of_class, isinstance_bool, isinstance_int, int_nonneg,
      binary_is_valid_type, isinstance_str, isinstance_sequence, Bool.not_false,
      Bool.true_and, Bool.and_false, Bool.false_and]
    rw [if_neg (by simp), if_neg (by simp; omega), if_neg (by simp), if_neg (by simp),
      if_neg (by simp), if_neg (by simp)]

/-- C7 witness: booleans take the boolean codec and never the integer one;
a nonnegative integer takes `big_endian_int`; a negative one is refused. -/
theorem C7_infer_sedes_witness :
    infer_sedes (.vbool true) = .ok .boolean ∧
    infer_sedes (.vbool true) ≠ .ok .big_endian_int ∧
    infer_sedes (.vint 5) = .ok .big_endian_int ∧
    infer_sedes (.vint (-1)) = .error .noSedes :=
  ⟨(C7_infer_sedes_dispatch.2.2.2.2.1 true).1,
   (C7_infer_sedes_dispatch.2.2.2.2.1 true).2,
   C7_infer_sedes_dispatch.2.1 5 (by norm_num),
   C7_infer_sedes_dispatch.2.2.2.2.2.2 (-1) (by norm_num)⟩

/-- C8: `encode` consults and updates the record cache only when no explicit
sedes is supplied: a record with a non-empty `_cached_rlp` and no sedes gets
the cached bytes back directly and unchanged; the result is stored into
`_cached_rlp` exactly when the value is a record, `cache` is true, and the
sedes is `None`; and under an explicit sedes the cache is neither read (the
returned bytes do not depend on it, beyond what the sedes itself sees) nor
modified. -/
theorem C8_encode_cache (obj : PyVal) (sedes : Option Sedes)
    (infer_serializer cache : Bool) :
    (∀ r, obj = .vrecord r → sedes = none → r.cached ≠ [] →
      encode obj sedes infer_serializer cache = .ok (r.cached, obj)) ∧
    (∀ result obj', encode obj sedes infer_serializer cache = .ok (result, obj') →
      ((isRecord obj = true ∧ cache = true ∧ sedes = none) → cacheOf obj' = result) ∧
      (¬(isRecord obj = true ∧ cache = true ∧ sedes = none) → obj' = obj)) ∧
    (∀ s, sedes = some s →
      (∀ result obj', encode obj sedes infer_serializer cache = .ok (result, obj') →
        obj' = obj) ∧
      (∀ bs, s (setCache obj bs) = s obj →
        (encode (setCache obj bs) sedes infer_serializer cache).map Prod.fst =
          (encode obj sedes infer_serializer cache).map Prod.fst)) := by
  refine ⟨?_, ?_, ?_⟩
  · intro r hobj hsed hne
    subst hobj; subst hsed
    rw [encode_vrecord, if_pos ⟨rfl, hne⟩]
  · intro result obj' h
    cases obj with
    | vrecord r =>
      rw [encode_vrecord] at h
      split at h
      next hhit =>
        simp only [Except.ok.injEq, Prod.mk.injEq] at h
        obtain ⟨h1, h2⟩ := h
        constructor
        · intro _
          rw [← h2]
          exact h1
        · intro _
          exact h2.symm
      next hmiss =>
        have hsnd := encode_main_ok_snd _ _ _ _ _ _ h
        constructor
        · rintro ⟨-, hc, hsed⟩
          subst hsed
          have hrc : (cache && (none : Option Sedes).isNone) = true := by
            rw [hc]; rfl
          rw [hrc, if_pos rfl] at hsnd
          rw [hsnd]
          rfl
        · intro hnot
          have hrc : (cache && sedes.isNone) = false := by
            cases cache with
            | false => rfl
            | true =>
              cases sedes with
              | none => exact absurd ⟨rfl, rfl, rfl⟩ hnot
              | some s => rfl
          rw [hrc] at hsnd
          simpa using hsnd
    | vbool b =>
      have h' : encode_main (PyVal.vbool b) sedes infer_serializer false =
          .ok (result, obj') := h
      have hsnd := encode_main_ok_snd _ _ _ _ _ _ h'
      refine ⟨fun hcon => absurd hcon.1 (by simp [isRecord]), fun _ => ?_⟩
      simpa using hsnd
    | vint n =>
      have h' : encode_main (PyVal.vint n) sedes infer_serializer false =
          .ok (result, obj') := h
      have hsnd := encode_main_ok_snd _ _ _ _ _ _ h'
      refine ⟨fun hcon => absurd hcon.1 (by simp [isRecord]), fun _ => ?_⟩
      simpa using hsnd
    | vbytes bs =>
      have h' : encode_main (PyVal.vbytes bs) sedes infer_serializer false =
          .ok (result, obj') := h
      have hsnd := encode_main_ok_snd _ _ _ _ _ _ h'
      refine ⟨fun hcon => absurd hcon.1 (by simp [isRecord]), fun _ => ?_⟩
      simpa using hsnd
    | vstr u =>
      have h' : encode_main (PyVal.vstr u) sedes infer_serializer false =
          .ok (result, obj') := h
      have hsnd := encode_main_ok_snd _ _ _ _ _ _ h'
      refine ⟨fun hcon => absurd hcon.1 (by simp [isRecord]), fun _ => ?_⟩
      simpa using hsnd
    | vlist xs =>
      have h' : encode_main (PyVal.vlist xs) sedes infer_serializer false =
          .ok (result, obj') := h
      have hsnd := encode_main_ok_snd _ _ _ _ _ _ h'
      refine ⟨fun hcon => absurd hcon.1 (by simp [isRecord]), fun _ => ?_⟩
      simpa using hsnd
  · intro s hsed
    subst hsed
    constructor
    · intro result obj' h
      cases obj with
      | vrecord r =>
        rw [encode_vrecord, if_neg (by simp)] at h
        have hsnd := encode_main_ok_snd _ _ _ _ _ _ h
        simpa using hsnd
      | vbool b =>
        have h' : encode_main (PyVal.vbool b) (some s) infer_serializer false =
            .ok (result, obj') := h
        have hsnd := encode_main_ok_snd _ _ _ _ _ _ h'
        simpa using hsnd
      | vint n =>
        have h' : encode_main (PyVal.vint n) (some s) infer_serializer false =
            .ok (result, obj') := h
        have hsnd := encode_main_ok_snd _ _ _ _ _ _ h'
        simpa using hsnd
      | vbytes bs =>
        have h' : encode_main (PyVal.vbytes bs) (some s) infer_serializer false =
            .ok (result, obj') := h
        have hsnd := encode_main_ok_snd _ _ _ _ _ _ h'
        simpa using hsnd
      | vstr u =>
        have h' : encode_main (PyVal.vstr u) (some s) infer_serializer false =
            .ok (result, obj') := h
        have hsnd := encode_main_ok_snd _ _ _ _ _ _ h'
        simpa using hsnd
      | vlist xs =>
        have h' : encode_main (PyVal.vlist xs) (some s) infer_serializer false =
            .ok (result, obj') := h
        have hsnd := encode_main_ok_snd _ _ _ _ _ _ h'
        simpa using hsnd
    · intro bs hbs
      cases obj with
      | vrecord r =>
        have e1 : encode (setCache (PyVal.vrecord r) bs) (some s) infer_serializer cache =
            encode_main (PyVal.vrecord (SRecord.mk r.tree bs)) (some s) infer_serializer
              (cache && (some s : Option Sedes).isNone) := by
          rw [show setCache (PyVal.vrecord r) bs = PyVal.vrecord (SRecord.mk r.tree bs)
              from rfl,
            encode_vrecord, if_neg (by simp)]
        have e2 : encode (PyVal.vrecord r) (some s) infer_serializer cache =
            encode_main (PyVal.vrecord r) (some s) infer_serializer
              (cache && (some s : Option Sedes).isNone) := by
          rw [encode_vrecord, if_neg (by simp)]
        rw [e1, e2]
        exact encode_main_fst_eq (PyVal.vrecord r) _ s infer_serializer _ _ hbs
      | vbool b => rfl
      | vint n => rfl
      | vbytes l => rfl
      | vstr u => rfl
      | vlist xs => rfl

/-- C8 witness: a record holding the tree `b"a"` with cached bytes
`82 61 61` and no explicit sedes gets the cached bytes back, with the value
unchanged. -/
theorem C8_encode_cache_witness :
    encode (.vrecord (SRecord.mk (.leaf [97]) [130, 97, 97])) none true true =
      .ok ([130, 97, 97], .vrecord (SRecord.mk (.leaf [97]) [130, 97, 97])) :=
  (C8_encode_cache (.vrecord (SRecord.mk (.leaf [97]) [130, 97, 97])) none true true).1
    (SRecord.mk (.leaf [97]) [130, 97, 97]) rfl rfl (by simp)

/-- C9: decoding a list payload consumes child items until the position
reaches the declared list end — a successful consumption always finishes
exactly at `endPos` — and whenever a child's end position overshoots the
declared list end, decoding fails with `listLengthMismatch` rather than
returning a list. -/
theorem C9_list_consumption (f : Nat) (rlp : List Nat) (pos endPos : Nat) :
    (∀ items fin, consume_list_fuel f rlp pos endPos = .ok (items, fin) → fin = endPos) ∧
    (1 ≤ f → endPos < pos →
      consume_list_fuel f rlp pos endPos = .error .listLengthMismatch) := by
  constructor
  · intro items fin h
    exact consume_list_fuel_ok_end f rlp pos endPos items fin h
  · intro hf hlt
    obtain ⟨f', rfl⟩ : ∃ f', f = f' + 1 := ⟨f - 1, by omega⟩
    rw [consume_list_fuel]
    rw [if_neg (by omega), if_pos hlt]

/-- C9 witness: consuming the payload of a one-child list ends exactly at
the declared end, and a position past the declared end fails with
`listLengthMismatch`. -/
theorem C9_list_consumption_witness :
    consume_list_fuel 5 [0x61] 0 1 = .ok ([.str [0x61] [0x61]], 1) ∧
    (1 : Nat) = 1 ∧
    consume_list_fuel 1 [] 1 0 = .error .listLengthMismatch :=
  ⟨rfl,
   (C9_list_consumption 5 [0x61] 0 1).1 [.str [0x61] [0x61]] 1 rfl,
   (C9_list_consumption 1 [] 1 0).2 (by norm_num) (by norm_num)⟩

/-- C10: on the truncated input `83 61 62` — a string prefix declaring a
3-byte payload over only two remaining bytes — non-strict decode raises no
error and returns a leaf strictly shorter than the declared length, because
the payload is taken by a Python slice which silently stops at the end of
the buffer. -/
theorem C10_nonstrict_truncated_slice :
    decode [0x83, 0x61, 0x62] false = .ok (.leaf [0x61, 0x62]) ∧
    pySlice [0x83, 0x61, 0x62] 1 (1 + 3) = [0x61, 0x62] ∧
    ([0x61, 0x62] : List Nat).length < 3 :=
  ⟨rfl, rfl, by norm_num⟩

end RLP
